import Mathlib

/-!
Verification of the flax ECS core against its specification.

The change-tracking module (src/archetype/changes.rs) is embedded in full.
The slice type it operates on (the archetype slice module is not part of the
sources at hand) is modelled from the spec: slices are half-open intervals
of slots, with contiguous difference, adjacent-or-overlapping union, a
three-way split, and the derived lexicographic ordering.
-/

/-- Modelled from the spec: a half-open interval of archetype slots,
`[start, stop)`. The source field name is the Rust keyword-free pair
`start`/`end`; `end` is reserved in Lean, hence `stop`. -/
structure Slice where
  start : Nat
  stop : Nat
deriving DecidableEq, Repr

/-- A slice covering the single slot `slot` (Slice::single). -/
def Slice.single (slot : Nat) : Slice := ⟨slot, slot + 1⟩

/-- Construct a slice (Slice::new). -/
def Slice.new (start stop : Nat) : Slice := ⟨start, stop⟩

/-- Modelled from the spec: a slice is empty when it contains no slot. -/
def Slice.isEmpty (s : Slice) : Prop := s.stop ≤ s.start

instance (s : Slice) : Decidable s.isEmpty :=
  inferInstanceAs (Decidable (s.stop ≤ s.start))

/-- Slot membership in a half-open slice. -/
def Slice.covers (s : Slice) (x : Nat) : Prop := s.start ≤ x ∧ x < s.stop

instance (s : Slice) (x : Nat) : Decidable (s.covers x) :=
  inferInstanceAs (Decidable (_ ∧ _))

/-- Modelled from the spec: the portion of `a` not covered by `b`, defined
when it is contiguous (clip of a prefix, a suffix, all, or nothing); `none`
when `b` lies strictly inside `a` and would split it in two. -/
def Slice.difference (a b : Slice) : Option Slice :=
  if b.isEmpty ∨ a.isEmpty then some a
  else if a.stop ≤ b.start ∨ b.stop ≤ a.start then some a
  else if b.start ≤ a.start ∧ a.stop ≤ b.stop then some ⟨0, 0⟩
  else if a.start < b.start ∧ a.stop ≤ b.stop then some ⟨a.start, b.start⟩
  else if b.start ≤ a.start ∧ b.stop < a.stop then some ⟨b.stop, a.stop⟩
  else none

/-- Modelled from the spec: the union of two slices, defined when they are
overlapping or adjacent. -/
def Slice.union (a b : Slice) : Option Slice :=
  if a.start ≤ b.stop ∧ b.start ≤ a.stop then
    some ⟨min a.start b.start, max a.stop b.stop⟩
  else none

/-- Modelled from the spec: split `v` around a contained sub-slice `s`,
returning the left remainder, `s` itself, and the right remainder. -/
def Slice.splitWith (v s : Slice) : Option (Slice × Slice × Slice) :=
  if ¬s.isEmpty ∧ v.start ≤ s.start ∧ s.stop ≤ v.stop then
    some (⟨v.start, s.start⟩, s, ⟨s.stop, v.stop⟩)
  else none

/-- Modelled from the spec: the derived lexicographic strict order on
slices, by start and then by end. -/
def Slice.lt (a b : Slice) : Prop :=
  a.start < b.start ∨ (a.start = b.start ∧ a.stop < b.stop)

instance (a b : Slice) : Decidable (a.lt b) :=
  inferInstanceAs (Decidable (_ ∨ _))

/-! The change list (src/archetype/changes.rs). -/

/-- The kind of a change record (ChangeKind). -/
inductive ChangeKind where
  | Modified
  | Inserted
  | Removed
deriving DecidableEq, Repr

/-- A change over a slice of entities at a specific tick (Change). -/
structure Change where
  slice : Slice
  tick : Nat
  kind : ChangeKind
deriving DecidableEq, Repr

/-- Change::modified. -/
def Change.modified (slice : Slice) (tick : Nat) : Change :=
  ⟨slice, tick, ChangeKind.Modified⟩

/-- A self-compacting ordered list of changes (ChangeList). -/
structure ChangeList where
  inner : List Change
deriving DecidableEq, Repr

/-- ChangeList::new. -/
def ChangeList.new : ChangeList := ⟨[]⟩

/-- Result of the retain_mut walk inside ChangeList::set: the retained
entries, the (possibly clipped) incoming change, the insertion point and
the joined flag. -/
structure SetResult where
  out : List Change
  change : Change
  insertPoint : Nat
  joined : Bool
deriving DecidableEq, Repr

/-- The clipping step of the retain_mut loop in ChangeList::set: a
strictly older entry is clipped against the incoming change, otherwise
the incoming change is clipped against the entry. Returns the updated
entry and incoming change. -/
def ChangeList.clipStep (v change : Change) : Change × Change :=
  if v.tick < change.tick then
    (match v.slice.difference change.slice with
     | some d => { v with slice := d }
     | none => v, change)
  else
    (v, match change.slice.difference v.slice with
        | some d => { change with slice := d }
        | none => change)

/-- The merge step of the retain_mut loop in ChangeList::set: when the
entry's slice is before the incoming slice at an equal tick and the union
exists, the incoming change is merged into the entry and the joined flag
set. -/
def ChangeList.mergeStep (v1 change1 : Change) (joined : Bool) :
    Change × Bool :=
  if v1.slice.lt change1.slice ∧ v1.tick = change1.tick then
    match v1.slice.union change1.slice with
    | some u => ({ v1 with slice := u }, true)
    | none => (v1, joined)
  else (v1, joined)

/-- The retain_mut loop of ChangeList::set, walking the existing entries
in order while threading the incoming change, the insertion point, the
retained count and the joined flag. -/
def ChangeList.setLoop (change : Change) (insertPoint i : Nat)
    (joined : Bool) : List Change → SetResult
  | [] => ⟨[], change, insertPoint, joined⟩
  | v :: rest =>
    if change.slice.isEmpty then
      let r := ChangeList.setLoop change insertPoint i joined rest
      ⟨v :: r.out, r.change, r.insertPoint, r.joined⟩
    else
      -- Remove older changes which are a subset of the newer slots
      let p := ChangeList.clipStep v change
      -- Merge the change into an already existing change
      let m := ChangeList.mergeStep p.1 p.2 joined
      if m.1.slice.isEmpty then
        ChangeList.setLoop p.2 insertPoint i m.2 rest
      else
        let i1 := i + 1
        let ip1 := if m.1.slice.lt p.2.slice then i1 else insertPoint
        let r := ChangeList.setLoop p.2 ip1 i1 m.2 rest
        ⟨m.1 :: r.out, r.change, r.insertPoint, r.joined⟩

/-- Vec::insert at an index (appends when the index is past the end). -/
def insertAt (n : Nat) (c : Change) : List Change → List Change
  | [] => [c]
  | x :: xs =>
    match n with
    | 0 => c :: x :: xs
    | n1 + 1 => x :: insertAt n1 c xs

/-- ChangeList::set: walk the entries clipping older ones against the
incoming change (and the incoming change against newer ones), merging
equal-tick neighbours, then insert the remainder at the computed point. -/
def ChangeList.set (l : ChangeList) (change : Change) : ChangeList :=
  let r := ChangeList.setLoop change 0 0 false l.inner
  if r.joined = false ∧ ¬r.change.slice.isEmpty then
    ⟨insertAt r.insertPoint r.change r.out⟩
  else ⟨r.out⟩

/-- State of the drain/flat_map walk inside ChangeList::remove: the result
entries, the pending right-hand fragments and the removed point changes. -/
structure RemoveState where
  result : List Change
  right : List Change
  removed : List Change
deriving DecidableEq, Repr

/-- The pending-fragment flush condition inside ChangeList::remove: the
first pending right fragment compares below the slice about to be pushed. -/
def flushCond : List Change → Slice → Prop
  | [], _ => False
  | r0 :: _, l => r0.slice.lt l

instance : (right : List Change) → (l : Slice) → Decidable (flushCond right l)
  | [], _ => isFalse (fun h => h)
  | _ :: _, _ => inferInstanceAs (Decidable (Slice.lt _ _))

/-- One step of the drain walk of ChangeList::remove. -/
def removeStep (slice : Slice) (st : RemoveState) (v : Change) : RemoveState :=
  match v.slice.splitWith slice with
  | some (l, _, r) =>
    let st1 :=
      if ¬l.isEmpty then
        let doFlush := flushCond st.right l
        let res := if doFlush then st.result ++ st.right else st.result
        let rt := if doFlush then ([] : List Change) else st.right
        { st with result := res ++ [⟨l, v.tick, v.kind⟩], right := rt }
      else st
    let st2 :=
      if ¬r.isEmpty then
        { st1 with right := st1.right ++ [⟨r, v.tick, v.kind⟩] }
      else st1
    { st2 with removed := st2.removed ++ [⟨slice, v.tick, v.kind⟩] }
  | none =>
    let doFlush := flushCond st.right v.slice
    let res := if doFlush then st.result ++ st.right else st.result
    let rt := if doFlush then ([] : List Change) else st.right
    { st with result := res ++ [v], right := rt }

/-- ChangeList::remove: split every entry containing the slot, keeping the
remainders in order and returning the removed point changes. -/
def ChangeList.remove (l : ChangeList) (slot : Nat) :
    ChangeList × List Change :=
  let slice := Slice.single slot
  let st := l.inner.foldl (removeStep slice) ⟨[], [], []⟩
  (⟨st.result ++ st.right⟩, st.removed)

/-- ChangeList::migrate_to: remove the source slot from `l` and set each
removed change, rewritten to the destination slot, into `other`. -/
def ChangeList.migrateTo (l other : ChangeList) (srcSlot dstSlot : Nat) :
    ChangeList × ChangeList :=
  let r := l.remove srcSlot
  (r.1, r.2.foldl (fun o c => o.set { c with slice := Slice.single dstSlot })
    other)

/-- ChangeList::swap_out: remove `src` by swapping `dst` into its place;
`none` models the assertion that every removed destination change is the
destination point slice. -/
def ChangeList.swapOut (l : ChangeList) (src dst : Nat) :
    Option (ChangeList × List Change) :=
  let r1 := l.remove src
  let r2 := r1.1.remove dst
  if r2.2.all (fun v => v.slice = Slice.single dst) then
    some (r2.2.foldl (fun acc v => acc.set { v with slice := Slice.single src })
      r2.1, r1.2)
  else none

/-- The ordering half of the ChangeList invariant (assert_ordered): entries
are sorted by slice start. -/
def ChangeList.ordered (l : ChangeList) : Prop :=
  l.inner.Pairwise (fun a b => a.slice.start ≤ b.slice.start)

/-- Strict ordering of entries by slice start. -/
def ChangeList.strictOrdered (l : ChangeList) : Prop :=
  l.inner.Pairwise (fun a b => a.slice.start < b.slice.start)

/-- The disjointness half of the ChangeList invariant: no slot is covered
by two entries. -/
def ChangeList.disjointSlices (l : ChangeList) : Prop :=
  l.inner.Pairwise (fun a b => ∀ x, a.slice.covers x → ¬b.slice.covers x)

instance (l : ChangeList) : Decidable l.ordered := by
  unfold ChangeList.ordered
  exact inferInstance

instance (l : ChangeList) : Decidable l.strictOrdered := by
  unfold ChangeList.strictOrdered
  exact inferInstance

instance slicesApartDec (a b : Change) :
    Decidable (∀ x, a.slice.covers x → ¬b.slice.covers x) := by
  have h : (∀ x, a.slice.covers x → ¬b.slice.covers x) ↔
      (∀ x < a.slice.stop, a.slice.covers x → ¬b.slice.covers x) := by
    constructor
    · intro h x _ hc; exact h x hc
    · intro h x hc; exact h x hc.2 hc
  exact decidable_of_iff _ h.symm

instance (l : ChangeList) : Decidable l.disjointSlices := by
  unfold ChangeList.disjointSlices
  exact inferInstance

/-! The entity identifier (src/entity/mod.rs). Bit layout per the source
doc comment: 8 namespace bits, 24 index bits, 16 generation bits (from bit
32), 16 reserved bits. Panics are modelled as none: the non-zero index
assertion in from_parts, the NonZero wrappers, and the unwrap of the
reconstructed index in into_parts. -/

/-- Entity::from_parts: pack index (masked to 24 bits), generation and
namespace into a 64-bit word; the index must be below u32::MAX >> 1 and
the word must be non-zero. -/
def Entity.fromParts (index gen ns : Nat) : Option Nat :=
  if index < 2147483647 then
    let bits := (((index % 16777216) <<< 8) ||| (gen <<< 32)) ||| ns
    if bits = 0 then none else some bits
  else none

/-- Entity::into_parts: recover (index, generation, namespace); the
reconstructed index must be non-zero. -/
def Entity.intoParts (bits : Nat) : Option (Nat × Nat × Nat) :=
  let index := (bits % 4294967296) >>> 8
  if index = 0 then none
  else some (index, (bits >>> 32) % 65536, bits % 256)

/-! Column storage (src/archetype/storage.rs). Storage is a type-erased
contiguous buffer; it is modelled as the list of stored values, `len`
being the list length. The out-of-bounds panic of swap_remove is modelled
as none. -/

/-- The typed column storage. -/
structure Storage (α : Type) where
  values : List α
deriving DecidableEq, Repr

/-- Storage length. -/
def Storage.len {α : Type} (s : Storage α) : Nat := s.values.length

/-- Storage::swap_remove: halt (none) when the slot is out of bounds;
otherwise run the caller's hook on the victim (returned), byte-copy the
last element into the slot, and decrement the length. -/
def Storage.swapRemove {α : Type} (s : Storage α) (slot : Nat) :
    Option (Storage α × α) :=
  if h : slot < s.values.length then
    match s.values.getLast? with
    | some lastv =>
      some (⟨(s.values.set slot lastv).take (s.values.length - 1)⟩,
        s.values.get ⟨slot, h⟩)
    | none => none
  else none

/-! The world (src/world.rs) and its collaborators. The entity store and
the Archetype type live in modules that are not part of the sources at
hand; they are modelled from the spec (sections 4.4 and 4.5): a slab of
generation-tagged entries with a free list, and an archetype holding one
cell per component (in key order), the entity-id column and single-key
bidirectional edges. Component values are modelled as Nat. -/

/-- Per-component descriptor, reduced to the id the world operations
compare and sort by. -/
structure ComponentInfo where
  id : Nat
deriving DecidableEq, Repr

/-- The Changes bundle of changes.rs: one ChangeList per change kind. -/
structure Changes where
  info : ComponentInfo
  inserted : ChangeList
  modified : ChangeList
  removed : ChangeList
deriving DecidableEq, Repr

/-- Changes::new. -/
def Changes.new (info : ComponentInfo) : Changes :=
  ⟨info, ChangeList.new, ChangeList.new, ChangeList.new⟩

/-- Changes::migrate_to: migrate the removed, inserted and modified lists
of a slot into another bundle. -/
def Changes.migrateTo (self other : Changes) (srcSlot dstSlot : Nat) :
    Changes × Changes :=
  let r := self.removed.migrateTo other.removed srcSlot dstSlot
  let i := self.inserted.migrateTo other.inserted srcSlot dstSlot
  let m := self.modified.migrateTo other.modified srcSlot dstSlot
  (⟨self.info, i.1, m.1, r.1⟩, ⟨other.info, i.2, m.2, r.2⟩)

/-- Changes::swap_out applied to all three lists; none models a failed
assertion inside ChangeList::swap_out. -/
def Changes.swapOut (c : Changes) (src dst : Nat) : Option Changes :=
  match c.inserted.swapOut src dst, c.modified.swapOut src dst,
      c.removed.swapOut src dst with
  | some a, some b, some r => some ⟨c.info, a.1, b.1, r.1⟩
  | _, _, _ => none

/-- A generational entity handle of the world model (index is 1-based and
non-zero; the 64-bit packing is treated separately). -/
structure EntityId where
  index : Nat
  gen : Nat
deriving DecidableEq, Repr

/-- An entity's location: archetype id and slot. -/
structure EntityLocation where
  archetype : Nat
  slot : Nat
deriving DecidableEq, Repr

instance : Inhabited EntityLocation := ⟨⟨0, 0⟩⟩

/-- Modelled from the spec: one slab entry of the entity store. -/
structure EntityStoreEntry where
  gen : Nat
  alive : Bool
  loc : EntityLocation
deriving DecidableEq, Repr

instance : Inhabited EntityStoreEntry := ⟨⟨0, false, default⟩⟩

/-- Modelled from the spec: a slab with generation tags and a free list;
slab position i holds the entity of index i + 1. -/
structure EntityStore where
  entries : List EntityStoreEntry
  freeList : List Nat
deriving DecidableEq, Repr

/-- EntityStore::new. -/
def EntityStore.new : EntityStore := ⟨[], []⟩

/-- Modelled from the spec: spawn reuses an index from the free list (its
generation was bumped at despawn) or appends a fresh index. -/
def EntityStore.spawn (es : EntityStore) (loc : EntityLocation) :
    EntityStore × EntityId :=
  match es.freeList with
  | i :: rest =>
    let e := es.entries.getD i default
    let e1 := { e with alive := true, loc := loc }
    (⟨es.entries.set i e1, rest⟩, ⟨i + 1, e.gen⟩)
  | [] =>
    (⟨es.entries ++ [⟨0, true, loc⟩], []⟩, ⟨es.entries.length + 1, 0⟩)

/-- Modelled from the spec: get verifies liveness and the generation,
returning the location or nothing (NotAlive). -/
def EntityStore.get (es : EntityStore) (id : EntityId) :
    Option EntityLocation :=
  match es.entries.get? (id.index - 1) with
  | some e => if e.alive ∧ e.gen = id.gen then some e.loc else none
  | none => none

/-- Is the id alive in the store? -/
def EntityStore.isAlive (es : EntityStore) (id : EntityId) : Bool :=
  (es.get id).isSome

/-- Modelled from the spec: despawn of a live id bumps the generation and
pushes the index on the free list; it fails when the id is not alive. -/
def EntityStore.despawn (es : EntityStore) (id : EntityId) :
    Option EntityStore :=
  match es.entries.get? (id.index - 1) with
  | some e =>
    if e.alive ∧ e.gen = id.gen then
      let e1 := { e with alive := false, gen := e.gen + 1 }
      some ⟨es.entries.set (id.index - 1) e1, (id.index - 1) :: es.freeList⟩
    else none
  | none => none

/-- The get_mut-and-assign pattern of the source (entities.get_mut(id)
returns the location for update); none models the unwrap panic on a dead
id. -/
def EntityStore.setLoc (es : EntityStore) (id : EntityId)
    (loc : EntityLocation) : Option EntityStore :=
  match es.entries.get? (id.index - 1) with
  | some e =>
    if e.alive ∧ e.gen = id.gen then
      some { es with entries :=
          es.entries.set (id.index - 1) ({ e with loc := loc }) }
    else none
  | none => none

/-- One component cell of an archetype: the column plus its change
bundle (spec section 4.3; subscribers are not modelled here). -/
structure Cell where
  storage : List Nat
  changes : Changes
deriving DecidableEq, Repr

instance : Inhabited Cell := ⟨⟨[], Changes.new ⟨0⟩⟩⟩

/-- Modelled from the spec: an archetype holds one cell per component in
key order, the entity-id column, and single-key edges to structural
neighbours (an edge for component c links the archetype without c and the
archetype with c, in both directions, as installed by add_edge_to). -/
structure Archetype where
  cells : List Cell
  entities : List EntityId
  edges : List (Nat × Nat)
deriving DecidableEq, Repr

/-- Archetype::empty. -/
def Archetype.empty : Archetype := ⟨[], [], []⟩

instance : Inhabited Archetype := ⟨Archetype.empty⟩

/-- Archetype::new for an ordered component list. -/
def Archetype.new (infos : List ComponentInfo) : Archetype :=
  ⟨infos.map (fun i => ⟨[], Changes.new i⟩), [], []⟩

/-- Archetype::components. -/
def Archetype.components (a : Archetype) : List ComponentInfo :=
  a.cells.map (fun c => c.changes.info)

/-- Archetype::edge_to. -/
def Archetype.edgeTo (a : Archetype) (component : Nat) : Option Nat :=
  (a.edges.find? (fun e => e.1 == component)).map (fun e => e.2)

/-- One half of Archetype::add_edge_to. -/
def Archetype.addEdge (a : Archetype) (component archId : Nat) : Archetype :=
  { a with edges := a.edges ++ [(component, archId)] }

/-- Archetype::has. -/
def Archetype.has (a : Archetype) (component : Nat) : Bool :=
  (a.components.map (fun c => c.id)).contains component

/-- Archetype::entity. -/
def Archetype.entity (a : Archetype) (slot : Nat) : Option EntityId :=
  a.entities.get? slot

/-- Archetype::len. -/
def Archetype.len (a : Archetype) : Nat := a.entities.length

/-- Modelled from the spec: allocate pushes the id onto the entity column
and hands back the slot; the caller then writes every component column
(the only caller in the sources spawns into the empty root archetype, so
no per-column Inserted records arise here). -/
def Archetype.allocate (a : Archetype) (id : EntityId) : Archetype × Nat :=
  ({ a with entities := a.entities ++ [id] }, a.entities.length)

/-- Modelled from the spec: put_dyn writes a value into the freshly
reserved slot of the component's column; it fails when the archetype
lacks the column (or the slot is not the reserved tail slot). -/
def Archetype.putDyn (a : Archetype) (slot : Nat) (info : ComponentInfo)
    (value : Nat) : Option Archetype :=
  match a.cells.findIdx? (fun c => c.changes.info == info) with
  | some j =>
    let cell := a.cells.getD j default
    if cell.storage.length = slot then
      some { a with cells :=
          a.cells.set j ({ cell with storage := cell.storage ++ [value] }) }
    else none
  | none => none

/-- Swap-remove on a plain list: replace the slot with the last element
and drop the tail; none when out of bounds. -/
def listSwapRemove {α : Type} (l : List α) (slot : Nat) : Option (List α) :=
  if slot < l.length then
    match l.getLast? with
    | some lastv => some ((l.set slot lastv).take (l.length - 1))
    | none => none
  else none

/-- Move the shared columns from the source cells into the destination
cells at the new tail slot, migrating the change lists (used by move_to).
Returns the updated source and destination cells. -/
def moveCells (slot dstSlot : Nat) :
    List Cell → List Cell → Option (List Cell × List Cell)
  | srcCells, [] => some (srcCells, [])
  | srcCells, dcell :: drest =>
    match srcCells.findIdx? (fun sc => sc.changes.info == dcell.changes.info)
      with
    | some j =>
      let scell := srcCells.getD j default
      match scell.storage.get? slot with
      | some v =>
        let m := scell.changes.migrateTo dcell.changes slot dstSlot
        let srcCells1 := srcCells.set j ({ scell with changes := m.1 })
        let dcell1 : Cell := ⟨dcell.storage ++ [v], m.2⟩
        match moveCells slot dstSlot srcCells1 drest with
        | some (s2, d2) => some (s2, dcell1 :: d2)
        | none => none
      | none => none
    | none =>
      match moveCells slot dstSlot srcCells drest with
      | some (s2, d2) => some (s2, dcell :: d2)
      | none => none

/-- Swap-remove the slot out of every source cell and out of the entity
column, swapping the last slot into its place (changes use swap_out). -/
def Archetype.swapRemoveSlot (a : Archetype) (slot : Nat) :
    Option (Archetype × Option EntityId) :=
  if slot < a.entities.length then
    let lastSlot := a.entities.length - 1
    let swapped := if slot = lastSlot then none else a.entities.get? lastSlot
    match a.entities.getLast? with
    | some lastE =>
      let cells1 := a.cells.mapM (fun c =>
        match listSwapRemove c.storage slot, c.changes.swapOut slot lastSlot
          with
        | some st, some ch => some (⟨st, ch⟩ : Cell)
        | _, _ => none)
      match cells1 with
      | some cs =>
        let ents := (a.entities.set slot lastE).take lastSlot
        some ({ a with cells := cs, entities := ents }, swapped)
      | none => none
    | none => none
  else none

/-- Modelled from the spec: move_to transfers the entity at the slot to
the destination archetype's new tail slot: components present in both are
byte-moved and their change lists migrate, components only in the source
are dropped, columns only in the destination are left for the caller; the
source slot is then swap-removed, returning the entity that slid into it,
if any. -/
def Archetype.moveTo (src dst : Archetype) (slot : Nat) :
    Option (Archetype × Archetype × Nat × Option EntityId) :=
  let dstSlot := dst.entities.length
  match moveCells slot dstSlot src.cells dst.cells with
  | some (srcCells1, dstCells1) =>
    match src.entities.get? slot with
    | some id =>
      let src1 := { src with cells := srcCells1 }
      let dst1a := { dst with cells := dstCells1 }
      let dst1 := { dst1a with entities := dst.entities ++ [id] }
      match src1.swapRemoveSlot slot with
      | some (src2, swapped) => some (src2, dst1, dstSlot, swapped)
      | none => none
    | none => none
  | none => none

/-- The world: entity store plus archetype vector (src/world.rs). -/
structure World where
  entities : EntityStore
  archetypes : List Archetype
deriving DecidableEq, Repr

/-- World::new: the root archetype with no components at index 0. -/
def World.new : World := ⟨EntityStore.new, [Archetype.empty]⟩

/-- World::spawn: place the new id at the root archetype. The unwrap on
the just-spawned id cannot fail; the model updates the slot in place. -/
def World.spawn (w : World) : World × EntityId :=
  let r := w.entities.spawn default
  let root := w.archetypes.getD 0 Archetype.empty
  let ra := root.allocate r.2
  let w1 : World := ⟨r.1, w.archetypes.set 0 ra.1⟩
  match w1.entities.setLoc r.2 ⟨0, ra.2⟩ with
  | some es => ({ w1 with entities := es }, r.2)
  | none => (w1, r.2)

/-- The loop of World::fetch_archetype: walk the edges for each component
in order, creating the missing archetype for the prefix seen so far and
installing the edge in both directions. -/
def World.fetchArchetypeLoop :
    World → Nat → List ComponentInfo → List ComponentInfo → World × Nat
  | w, cursor, _seen, [] => (w, cursor)
  | w, cursor, seen, head :: tail =>
    let seen1 := seen ++ [head]
    let cur := w.archetypes.getD cursor Archetype.empty
    match cur.edgeTo head.id with
    | some nxt => World.fetchArchetypeLoop w nxt seen1 tail
    | none =>
      let newId := w.archetypes.length
      let newArch := (Archetype.new seen1).addEdge head.id cursor
      let w1 : World := { w with archetypes :=
        (w.archetypes.set cursor (cur.addEdge head.id newId)) ++ [newArch] }
      World.fetchArchetypeLoop w1 newId seen1 tail

/-- World::fetch_archetype starting at the root. -/
def World.fetchArchetype (w : World) (root : Nat)
    (components : List ComponentInfo) : World × Nat :=
  World.fetchArchetypeLoop w root [] components

/-- World::insert: split the source's component list around the pivot,
build the new component list (the component is appended even when already
present), assert it is sorted, fetch the destination archetype, assert it
differs from the source, move the entity over, write the value via
put_dyn (whose failure the source unwraps with an expect), and fix up the
locations. Every modelled panic is none. -/
def World.insert (w : World) (id : EntityId) (component : ComponentInfo)
    (value : Nat) : Option World :=
  match w.entities.get id with
  | none => none
  | some loc =>
    let srcId := loc.archetype
    let slot := loc.slot
    let src := w.archetypes.getD srcId Archetype.empty
    let components := src.components
    let pivot := (components.takeWhile (fun v => v.id < component.id)).length
    let left := components.take pivot
    let right := components.drop pivot
    let newComponents := left ++ [component] ++ right
    if newComponents.Pairwise (fun a b => a.id ≤ b.id) then
      let r := w.fetchArchetype 0 newComponents
      let w1 := r.1
      let dstId := r.2
      if srcId = dstId then none
      else
        let src1 := w1.archetypes.getD srcId Archetype.empty
        let dst1 := w1.archetypes.getD dstId Archetype.empty
        match Archetype.moveTo src1 dst1 slot with
        | some (src2, dst2, dstSlot, swapped) =>
          match dst2.putDyn dstSlot component value with
          | some dst3 =>
            if dst3.entity dstSlot = some id then
              let w2 : World := { w1 with archetypes :=
                (w1.archetypes.set srcId src2).set dstId dst3 }
              let step1 : Option EntityStore :=
                match swapped with
                | some sid =>
                  match w2.entities.get sid with
                  | some sloc => w2.entities.setLoc sid ({ sloc with slot := slot })
                  | none => none
                | none => some w2.entities
              match step1 with
              | some es1 =>
                match (World.mk es1 w2.archetypes).entities.setLoc id
                    ⟨dstId, dstSlot⟩ with
                | some es2 => some ⟨es2, w2.archetypes⟩
                | none => none
              | none => none
            else none
          | none => none
        | none => none
    else none

/-- World::get: location lookup, then the typed cell read. -/
def World.get (w : World) (id : EntityId) (component : ComponentInfo) :
    Option Nat :=
  match w.entities.get id with
  | some loc =>
    match (w.archetypes.getD loc.archetype Archetype.empty).cells.find?
        (fun c => c.changes.info == component) with
    | some cell => cell.storage.get? loc.slot
    | none => none
  | none => none

/-- World::despawn (src/world.rs lines 200-203): delegate to the entity
store only; the archetypes are not touched. -/
def World.despawn (w : World) (id : EntityId) : Option World :=
  (w.entities.despawn id).map (fun es => { w with entities := es })

/-- World::is_alive. -/
def World.isAlive (w : World) (id : EntityId) : Bool :=
  w.entities.isAlive id

/-- A concrete component used by the world scenarios. -/
def compA : ComponentInfo := ⟨10⟩

/-- The world scenario: spawn one entity into a fresh world. -/
def exampleSpawn : World × EntityId := World.new.spawn

/-- The spawned entity id. -/
def exampleId : EntityId := exampleSpawn.2

/-- The world after giving the spawned entity component compA = 42. -/
def exampleInsertedWorld : Option World :=
  exampleSpawn.1.insert exampleId compA 42

/-- The world after despawning the entity again. -/
def exampleDespawnedWorld : Option World :=
  exampleInsertedWorld.bind (fun w => w.despawn exampleId)

/-! The query archetype-matching step (src/query/mod.rs and
src/query/planar.rs). The fetch is abstracted by its static archetype
matcher, a predicate on archetypes. -/

/-- World::archetypes: enumerate (id, archetype) pairs. -/
def World.archetypesEnum (w : World) : List (Nat × Archetype) :=
  w.archetypes.enum

/-- Query::get_archetypes (the archetype-matching step): keep the id of
every archetype the fetch's matcher accepts. -/
def Query.getArchetypes (w : World) (fmatches : Archetype → Bool) :
    List Nat :=
  w.archetypesEnum.filterMap
    (fun p => if fmatches p.2 then some p.1 else none)

/-- Modelled from the spec: Planar::update_state asks the archetype
searcher for candidate archetypes present in the world and pushes the id
of each one passing the fetch's filter_arch. The searcher's candidate ids
are abstract; only in-world candidates are visited. -/
def Planar.updateState (w : World) (candidates : List Nat)
    (filterArch : Archetype → Bool) : List Nat :=
  (candidates.filter (fun i => decide (i < w.archetypes.length))).filterMap
    (fun i => if filterArch (w.archetypes.getD i Archetype.empty) then some i
      else none)

/-! The topological query strategy (src/query/topo.rs). State::update
records the matched archetypes in discovery order (their ids indexed by
archetypes_index) together with the archetypes holding the targets of
their relations (the deps map); the searcher and world plumbing around it
is abstracted into that input. -/

/-- The dependency map lookup: deps.get(arch_id) with a missing entry
treated as no dependencies. -/
def depsOf (deps : List (Nat × List Nat)) (a : Nat) : List Nat :=
  (List.lookup a deps).getD []

/-- The recursive sort function inside State::update: skip visited
archetypes, visit all dependencies first, then push the archetype's index
when it is matched. Fuel bounds the recursion depth; every use supplies
enough fuel for the depth to be immaterial. -/
def topoVisit (index : List (Nat × Nat)) (deps : List (Nat × List Nat)) :
    Nat → Nat → List Nat × List Nat → List Nat × List Nat
  | 0, _, st => st
  | fuel + 1, archId, st =>
    if archId ∈ st.2 then st
    else
      let st0 := (st.1, archId :: st.2)
      let st1 := (depsOf deps archId).foldl
        (fun s dep => topoVisit index deps fuel dep s) st0
      match List.lookup archId index with
      | some idx => (st1.1 ++ [idx], st1.2)
      | none => st1

/-- State::update: index the matched archetypes in discovery order, keep
the non-empty dependency lists, and run the depth-first sort from every
matched archetype. -/
def State.update (matched : List (Nat × List Nat)) : List Nat :=
  let ids := matched.map Prod.fst
  let index := ids.enum.map (fun p => (p.2, p.1))
  let deps := matched.filter (fun p => ¬p.2.isEmpty)
  let univ := ids ++ matched.foldr (fun p acc => p.2 ++ acc) []
  (ids.foldl (fun st a => topoVisit index deps (univ.length + 1) a st)
    ([], [])).1

/-- A concrete dependency graph, mirroring the shape of the source's
topological-sort test: archetypes 0..6 where 1 and 4 depend on 6 and 2,
2 depends on 6, 5 depends on 0 and 3, and 6 depends on 0. -/
def topoExample : List (Nat × List Nat) :=
  [(0, []), (1, [6, 2]), (2, [6]), (3, []), (4, [6, 2]), (5, [0, 3]),
   (6, [0])]

/-- Invariant bundle of the depth-first sort: the stack is visited, the
visited set stays in the universe, every visited archetype is unmatched,
already pushed, or on the stack, the order is duplicate-free, and every
pushed index comes from a visited off-stack archetype. -/
def topoInv (index : List (Nat × Nat)) (univ stack : List Nat)
    (st : List Nat × List Nat) : Prop :=
  (∀ s ∈ stack, s ∈ st.2) ∧
  (∀ v ∈ st.2, v ∈ univ) ∧
  (∀ x ∈ st.2, List.lookup x index = none ∨
    (∃ i, List.lookup x index = some i ∧ i ∈ st.1) ∨ x ∈ stack) ∧
  st.1.Nodup ∧
  (∀ i ∈ st.1, ∃ x, x ∈ st.2 ∧ x ∉ stack ∧ List.lookup x index = some i)

/-- Positional invariant: every pushed archetype's matched dependencies
are pushed strictly before it. -/
def topoPos (index : List (Nat × Nat)) (deps : List (Nat × List Nat))
    (order : List Nat) : Prop :=
  ∀ q (hq : q < order.length) (x d idd : Nat),
    List.lookup x index = some (order.get ⟨q, hq⟩) →
    d ∈ depsOf deps x → List.lookup d index = some idd →
    idd ∈ order.take q

/-- Changes::set_modified: record a change on the modified change list
(src/src/archetype/changes.rs:379). -/
def Changes.setModified (c : Changes) (change : Change) : Changes :=
  { c with modified := c.modified.set change }

/-- Kind of a cell event delivered to subscribers. fetch/component_mut.rs
uses EventKind::Modified; the enum itself comes from a different snapshot
of events.rs, so the constructor set is modelled from the spec. -/
inductive EventKind where
  | Added
  | Modified
  | Removed
deriving DecidableEq, Repr

/-- The EventData handed to each subscriber in WriteComponent::set_visited:
the slots of the visited chunk and the event kind (the ids field of the
source is the entity-id column restricted to exactly those slots, so the
slice determines it). -/
structure EventRecord where
  slots : Slice
  kind : EventKind
deriving DecidableEq, Repr

/-- WriteComponent: the prepared fetch of a Mutable(component) query over
one archetype — the borrowed cell's change lists, the events delivered to
the cell's subscribers so far, and the query's new tick. -/
structure WriteComponent where
  changes : Changes
  events : List EventRecord
  tick : Nat
deriving DecidableEq, Repr

/-- WriteComponent::set_visited: an EventData of kind Modified for exactly
the chunk's slots is sent to every subscriber of the cell, and
Change::new(slots, tick) is recorded on the modified change list.
Modelled from the spec: the call set_modified_if_tracking is absent from
this snapshot of changes.rs, whose Changes offers the unconditional
set_modified; the spec says Modified(slot_slice, new_tick) is recorded. -/
def WriteComponent.setVisited (w : WriteComponent) (slots : Slice) :
    WriteComponent :=
  { w with
    events := w.events ++ [⟨slots, EventKind.Modified⟩]
    changes := w.changes.setModified ⟨slots, w.tick, ChangeKind.Modified⟩ }

/-- The iteration of ArchetypeChunks::next over the list of continuous
matched chunks produced by the prepared filter: each chunk is marked
visited on the fetch before being yielded as a Batch (represented by its
slice). Returns the final fetch state and the yielded batches in order. -/
def ArchetypeChunks.run (w : WriteComponent) :
    List Slice → WriteComponent × List Slice
  | [] => (w, [])
  | chunk :: rest =>
    let r := ArchetypeChunks.run (w.setVisited chunk) rest
    (r.1, chunk :: r.2)

theorem Slice.covers_nonempty {s : Slice} {x : Nat} (h : s.covers x) :
    ¬s.isEmpty := by
  rcases h with ⟨h1, h2⟩
  simp only [Slice.isEmpty]
  omega

theorem Slice.difference_covers {a b d : Slice} (hd : a.difference b = some d)
    {x : Nat} (hx : d.covers x) : a.covers x ∧ ¬b.covers x := by
  unfold Slice.difference at hd
  split at hd
  · injection hd with h
    subst h
    simp only [Slice.isEmpty, Slice.covers, not_and, not_lt] at *
    omega
  · split at hd
    · injection hd with h
      subst h
      simp only [Slice.isEmpty, Slice.covers, not_or, not_le, not_and,
        not_lt] at *
      omega
    · split at hd
      · injection hd with h
        subst h
        simp only [Slice.covers] at hx
        omega
      · split at hd
        · injection hd with h
          subst h
          simp only [Slice.isEmpty, Slice.covers, not_or, not_le, not_and,
            not_lt] at *
          omega
        · split at hd
          · injection hd with h
            subst h
            simp only [Slice.isEmpty, Slice.covers, not_or, not_le, not_and,
              not_lt] at *
            omega
          · cases hd

theorem Slice.covers_of_not_difference {a b : Slice} {d : Slice}
    (hd : a.difference b = some d) {x : Nat} (hx : a.covers x)
    (hnd : ¬d.covers x) : b.covers x := by
  unfold Slice.difference at hd
  split at hd
  · injection hd with h
    subst h
    exact absurd hx hnd
  · split at hd
    · injection hd with h
      subst h
      exact absurd hx hnd
    · split at hd
      · injection hd with h
        subst h
        simp only [Slice.isEmpty, Slice.covers, not_or, not_le, not_and,
          not_lt] at *
        omega
      · split at hd
        · injection hd with h
          subst h
          simp only [Slice.isEmpty, Slice.covers, not_or, not_le, not_and,
            not_lt] at *
          omega
        · split at hd
          · injection hd with h
            subst h
            simp only [Slice.isEmpty, Slice.covers, not_or, not_le, not_and,
              not_lt] at *
            omega
          · cases hd

theorem Slice.union_covers_right {a b u : Slice} (hu : a.union b = some u)
    {x : Nat} (hx : b.covers x) : u.covers x := by
  unfold Slice.union at hu
  split at hu
  · injection hu with h
    subst h
    simp only [Slice.covers] at *
    constructor
    · exact le_trans (min_le_right _ _) hx.1
    · exact lt_of_lt_of_le hx.2 (le_max_right _ _)
  · cases hu

theorem Slice.union_covers_left {a b u : Slice} (hu : a.union b = some u)
    {x : Nat} (hx : a.covers x) : u.covers x := by
  unfold Slice.union at hu
  split at hu
  · injection hu with h
    subst h
    simp only [Slice.covers] at *
    constructor
    · exact le_trans (min_le_left _ _) hx.1
    · exact lt_of_lt_of_le hx.2 (le_max_left _ _)
  · cases hu

theorem Slice.covers_start {s : Slice} (h : ¬s.isEmpty) : s.covers s.start := by
  simp only [Slice.isEmpty, not_le] at h
  exact ⟨le_refl _, h⟩

theorem mem_insertAt {e c : Change} :
    ∀ (n : Nat) (l : List Change), e ∈ insertAt n c l → e = c ∨ e ∈ l
  | _, [] => by
    intro h
    simp only [insertAt, List.mem_singleton] at h
    exact Or.inl h
  | 0, x :: xs => by
    intro h
    simp only [insertAt, List.mem_cons] at h
    rcases h with h | h | h
    · exact Or.inl h
    · exact Or.inr (by simp [h])
    · exact Or.inr (by simp [h])
  | n + 1, x :: xs => by
    intro h
    simp only [insertAt, List.mem_cons] at h
    rcases h with h | h
    · exact Or.inr (by simp [h])
    · rcases mem_insertAt n xs h with h1 | h1
      · exact Or.inl h1
      · exact Or.inr (by simp [h1])

/-- C1: the change list produced by two public set operations is not
disjoint, and after a third set operation it is not even ordered by slice
start, so the list violates the very invariant the source's debug
assertion (assert_ordered) checks. -/
theorem c1_changelist_invariant_fails :
    ¬((ChangeList.new.set (Change.modified (Slice.new 0 3) 1)).set
        (Change.modified (Slice.new 1 2) 2)).disjointSlices ∧
    ¬(((ChangeList.new.set (Change.modified (Slice.new 0 3) 1)).set
        (Change.modified (Slice.new 1 2) 2)).set
        (Change.modified (Slice.new 0 2) 2)).ordered := by decide

/-- C10: setting a change with an empty slice leaves every entry of the
loop untouched. -/
theorem setLoop_empty_change {c : Change} (hc : c.slice.isEmpty)
    (ip i : Nat) (j : Bool) :
    ∀ l, ChangeList.setLoop c ip i j l = ⟨l, c, ip, j⟩
  | [] => rfl
  | v :: rest => by
    unfold ChangeList.setLoop
    rw [if_pos hc, setLoop_empty_change hc ip i j rest]

/-- C10: calling set with a change whose slice is empty is an identity
operation on the change list. -/
theorem c10_set_empty_slice_identity (l : ChangeList) (c : Change)
    (hc : c.slice.isEmpty) : l.set c = l := by
  unfold ChangeList.set
  rw [setLoop_empty_change hc]
  simp [hc]

theorem c10_witness :
    (ChangeList.mk [Change.modified (Slice.new 1 4) 1]).set
      (Change.modified (Slice.new 5 5) 7) =
    ChangeList.mk [Change.modified (Slice.new 1 4) 1] :=
  c10_set_empty_slice_identity _ _ (by decide)

/-- C2 counterexample: the incoming change (3,5) at tick 2 is strictly
newer than the existing entry (0,10) at tick 1, yet the existing entry is
not clipped: slot 3 is covered by the incoming slice and remains covered
by the tick-1 entry. -/
theorem c2_counterexample :
    ((ChangeList.mk [Change.modified (Slice.new 0 10) 1]).set
      (Change.modified (Slice.new 3 5) 2)).inner =
      [Change.modified (Slice.new 0 10) 1, Change.modified (Slice.new 3 5) 2]
    ∧ (Slice.new 3 5).covers 3 ∧ (Slice.new 0 10).covers 3 := by decide

/-- C2 (amended): for an entry v of the change list and an incoming change
c: (i) when v is strictly older and the covered portion of v's slice has a
contiguous remainder, v is clipped so that no slot of the incoming slice
stays covered at v's tick; (ii) when v is strictly newer, the incoming
slice is clipped against v whenever contiguous, so no slot of v's slice is
covered at the incoming tick; (iii) when the ticks are equal and v's slice
is before the clipped incoming slice and adjacent or overlapping, the
incoming change is merged into v rather than inserted. When the incoming
slice lies strictly inside the older entry the remainder is not
contiguous and the entry is left unchanged. -/
theorem c2_set_clip_and_merge_amended (v c : Change) :
    (∀ d, v.tick < c.tick → v.slice.difference c.slice = some d →
      ∀ x, c.slice.covers x → ∀ e ∈ ((ChangeList.mk [v]).set c).inner,
        e.tick = v.tick → ¬e.slice.covers x) ∧
    (∀ d, c.tick < v.tick → c.slice.difference v.slice = some d →
      ∀ x, v.slice.covers x → ∀ e ∈ ((ChangeList.mk [v]).set c).inner,
        e.tick = c.tick → ¬e.slice.covers x) ∧
    (∀ d u, v.tick = c.tick → c.slice.difference v.slice = some d →
      ¬d.isEmpty → v.slice.lt d → v.slice.union d = some u →
      ((ChangeList.mk [v]).set c).inner = [⟨u, v.tick, v.kind⟩]) := by
  refine ⟨?_, ?_, ?_⟩
  · intro d hlt hd x hx e he htk hcov
    have hc : ¬c.slice.isEmpty := Slice.covers_nonempty hx
    have hne : v.tick ≠ c.tick := Nat.ne_of_lt hlt
    by_cases hde : d.isEmpty
    · simp only [ChangeList.set, ChangeList.setLoop, ChangeList.clipStep,
        ChangeList.mergeStep, hc, if_false, hlt,
        if_true, hd, hne, hde, and_false, if_true, not_false_iff,
        and_true] at he
      simp [insertAt, hde, hc] at he
      subst he
      exact hne htk.symm
    · simp only [ChangeList.set, ChangeList.setLoop, ChangeList.clipStep,
        ChangeList.mergeStep, hc, if_false, hlt,
        if_true, hd, hne, hde, and_false, if_true, not_false_iff,
        and_true] at he
      simp [hc, hde] at he
      rcases mem_insertAt _ _ he with h1 | h1
      · subst h1
        exact hne htk.symm
      · simp only [List.mem_singleton] at h1
        subst h1
        exact (Slice.difference_covers hd hcov).2 hx
  · intro d hgt hd x hx e he htk hcov
    have hve : ¬v.slice.isEmpty := Slice.covers_nonempty hx
    have hnlt : ¬v.tick < c.tick := Nat.not_lt_of_gt hgt
    have hne : v.tick ≠ c.tick := (Nat.ne_of_lt hgt).symm
    by_cases hc : c.slice.isEmpty
    · simp only [ChangeList.set, setLoop_empty_change hc, hc, not_true,
        and_false, if_false] at he
      simp at he
      subst he
      exact hne htk
    · by_cases hde : d.isEmpty
      · simp only [ChangeList.set, ChangeList.setLoop, ChangeList.clipStep,
          ChangeList.mergeStep, hc, hnlt, if_false,
          hd, hne, hde, and_false] at he
        simp [hve, hde, hc] at he
        subst he
        exact hne htk
      · simp only [ChangeList.set, ChangeList.setLoop, ChangeList.clipStep,
          ChangeList.mergeStep, hc, hnlt, if_false,
          hd, hne, hde, and_false] at he
        simp [hve, hde, hc] at he
        rcases mem_insertAt _ _ he with h1 | h1
        · subst h1
          exact (Slice.difference_covers hd hcov).2 hx
        · simp only [List.mem_singleton] at h1
          subst h1
          exact hne htk
  · intro d u heq hd hde hlt2 hu
    have hc : ¬c.slice.isEmpty := by
      intro hemp
      have heqd : c.slice.difference v.slice = some c.slice := by
        unfold Slice.difference
        rw [if_pos (Or.inr hemp)]
      rw [heqd] at hd
      injection hd with h
      subst h
      exact hde hemp
    have hnlt : ¬v.tick < c.tick := by omega
    have hue : ¬u.isEmpty := by
      intro hemp
      have hcov := Slice.union_covers_right hu (Slice.covers_start hde)
      exact absurd hemp (Slice.covers_nonempty hcov)
    have hcond : (v.slice.lt d ∧ v.tick = c.tick) = True := by
      simp [hlt2, heq]
    simp only [ChangeList.set, ChangeList.setLoop, ChangeList.clipStep,
          ChangeList.mergeStep, hc, hnlt, if_false, hd,
      hcond, if_true, hu, hue]
    simp [hue]

theorem c2_amended_witness :
    (∀ e ∈ ((ChangeList.mk [Change.modified (Slice.new 0 5) 1]).set
        (Change.modified (Slice.new 0 2) 2)).inner,
      e.tick = 1 → ¬e.slice.covers 1) ∧
    (∀ e ∈ ((ChangeList.mk [Change.modified (Slice.new 0 5) 3]).set
        (Change.modified (Slice.new 3 8) 2)).inner,
      e.tick = 2 → ¬e.slice.covers 4) ∧
    ((ChangeList.mk [Change.modified (Slice.new 0 3) 1]).set
        (Change.modified (Slice.new 2 6) 1)).inner =
      [Change.modified (Slice.new 0 6) 1] := by
  refine ⟨?_, ?_, ?_⟩
  · exact (c2_set_clip_and_merge_amended (Change.modified (Slice.new 0 5) 1)
      (Change.modified (Slice.new 0 2) 2)).1 (Slice.new 2 5) (by decide)
      (by decide) 1 (by decide)
  · exact (c2_set_clip_and_merge_amended (Change.modified (Slice.new 0 5) 3)
      (Change.modified (Slice.new 3 8) 2)).2.1 (Slice.new 5 8) (by decide)
      (by decide) 4 (by decide)
  · exact (c2_set_clip_and_merge_amended (Change.modified (Slice.new 0 3) 1)
      (Change.modified (Slice.new 2 6) 1)).2.2 (Slice.new 3 6)
      (Slice.new 0 6) (by decide) (by decide) (by decide) (by decide)
      (by decide)

/-- C5 counterexample: the index 2^24 + 1 fits in 32 bits (and passes the
from_parts assertion) but is masked to 24 bits, so the round trip returns
index 1 instead of 2^24 + 1. -/
theorem c5_counterexample :
    (Entity.fromParts 16777217 0 0).bind Entity.intoParts = some (1, 0, 0) ∧
    (1 : Nat) ≠ 16777217 := by decide

/-- C5 (amended): an entity id packs a 24-bit non-zero index, a 16-bit
generation and an 8-bit kind; for every such triple,
into_parts (from_parts index gen kind) returns exactly the triple. -/
theorem c5_roundtrip_amended (i g k : Nat) (hi0 : 0 < i)
    (hi : i < 16777216) (hg : g < 65536) (hk : k < 256) :
    (Entity.fromParts i g k).bind Entity.intoParts = some (i, g, k) := by
  have h1 : i % 16777216 = i := Nat.mod_eq_of_lt hi
  have hbits : (((i % 16777216) <<< 8) ||| (g <<< 32)) ||| k =
      256 * i + 4294967296 * g + k := by
    rw [h1, Nat.shiftLeft_eq, Nat.shiftLeft_eq]
    rw [Nat.lor_comm (i * 2 ^ 8) (g * 2 ^ 32)]
    rw [show g * 2 ^ 32 = 2 ^ 32 * g by ring]
    rw [← Nat.mul_add_lt_is_or (show i * 2 ^ 8 < 2 ^ 32 by omega) g]
    rw [show 2 ^ 32 * g + i * 2 ^ 8 = 2 ^ 8 * (16777216 * g + i) by ring]
    rw [← Nat.mul_add_lt_is_or (show k < 2 ^ 8 by omega) (16777216 * g + i)]
    ring
  have hfp : Entity.fromParts i g k =
      some (256 * i + 4294967296 * g + k) := by
    unfold Entity.fromParts
    rw [if_pos (show i < 2147483647 by omega)]
    show (if ((i % 16777216) <<< 8 ||| g <<< 32 ||| k) = 0 then none
      else some ((i % 16777216) <<< 8 ||| g <<< 32 ||| k)) = _
    rw [hbits, if_neg (by omega)]
  rw [hfp]
  show Entity.intoParts (256 * i + 4294967296 * g + k) = some (i, g, k)
  unfold Entity.intoParts
  simp only [Nat.shiftRight_eq_div_pow]
  rw [if_neg (by omega)]
  refine congrArg some ?_
  refine Prod.ext ?_ (Prod.ext ?_ ?_)
  · show (256 * i + 4294967296 * g + k) % 4294967296 / 2 ^ 8 = i
    omega
  · show (256 * i + 4294967296 * g + k) / 2 ^ 32 % 65536 = g
    omega
  · show (256 * i + 4294967296 * g + k) % 256 = k
    omega

theorem c5_roundtrip_witness :
    (Entity.fromParts 23298 30 1).bind Entity.intoParts =
      some (23298, 30, 1) :=
  c5_roundtrip_amended 23298 30 1 (by decide) (by decide) (by decide)
    (by decide)

theorem take_set_of_le {α : Type} (l : List α) (a : α) (n i : Nat)
    (h : n ≤ i) : (l.set i a).take n = l.take n := by
  apply List.ext_getElem?
  intro j
  rw [List.getElem?_take, List.getElem?_take]
  by_cases hj : j < n
  · rw [if_pos hj, if_pos hj, List.getElem?_set_ne (by omega)]
  · rw [if_neg hj, if_neg hj]

/-- C9: swap_remove halts (none) exactly when the slot is at or past the
length; on an in-bounds slot it shrinks the storage by one; and removing
the last slot moves no other element: the result is the storage minus its
last element, every survivor keeping its slot. -/
theorem c9_swap_remove_spec {α : Type} (s : Storage α) (slot : Nat) :
    (s.swapRemove slot = none ↔ s.len ≤ slot) ∧
    (slot < s.len → ∃ r, s.swapRemove slot = some r ∧ r.1.len = s.len - 1) ∧
    (slot + 1 = s.len → ∃ r, s.swapRemove slot = some r ∧
      r.1.values = s.values.dropLast) := by
  by_cases h : slot < s.values.length
  · cases hg : s.values.getLast? with
    | none =>
      rw [List.getLast?_eq_none_iff] at hg
      rw [hg] at h
      simp at h
    | some lastv =>
      have hs : s.swapRemove slot =
          some (⟨(s.values.set slot lastv).take (s.values.length - 1)⟩,
            s.values.get ⟨slot, h⟩) := by
        unfold Storage.swapRemove
        rw [dif_pos h, hg]
      refine ⟨⟨fun hn => ?_, fun hle => ?_⟩, fun _ => ?_, fun hlast => ?_⟩
      · rw [hs] at hn
        cases hn
      · exact absurd h (by
          have hl : s.len = s.values.length := rfl
          omega)
      · refine ⟨_, hs, ?_⟩
        show ((s.values.set slot lastv).take (s.values.length - 1)).length =
          s.values.length - 1
        rw [List.length_take, List.length_set]
        omega
      · refine ⟨_, hs, ?_⟩
        have hl : s.len = s.values.length := rfl
        show (s.values.set slot lastv).take (s.values.length - 1) =
          s.values.dropLast
        rw [take_set_of_le _ _ _ _ (by omega), List.dropLast_eq_take]
  · have hs : s.swapRemove slot = none := by
      unfold Storage.swapRemove
      rw [dif_neg h]
    refine ⟨⟨fun _ => ?_, fun _ => hs⟩, fun hlt => ?_, fun hlast => ?_⟩
    · show s.values.length ≤ slot
      omega
    · exact absurd hlt (by
        have hl : s.len = s.values.length := rfl
        omega)
    · exact absurd hlast (by
        have hl : s.len = s.values.length := rfl
        omega)

theorem c9_swap_remove_witness :
    ((Storage.mk [10, 20, 30] : Storage Nat).swapRemove 3 = none ↔
      (Storage.mk [10, 20, 30] : Storage Nat).len ≤ 3) ∧
    (2 < (Storage.mk [10, 20, 30] : Storage Nat).len → ∃ r,
      (Storage.mk [10, 20, 30] : Storage Nat).swapRemove 2 = some r ∧
      r.1.len = (Storage.mk [10, 20, 30] : Storage Nat).len - 1) ∧
    (2 + 1 = (Storage.mk [10, 20, 30] : Storage Nat).len → ∃ r,
      (Storage.mk [10, 20, 30] : Storage Nat).swapRemove 2 = some r ∧
      r.1.values = [10, 20, 30].dropLast) :=
  ⟨(c9_swap_remove_spec (Storage.mk [10, 20, 30]) 3).1,
   (c9_swap_remove_spec (Storage.mk [10, 20, 30]) 2).2.1,
   (c9_swap_remove_spec (Storage.mk [10, 20, 30]) 2).2.2⟩

/-- C3: despawn frees the id (is_alive becomes false and a second despawn
fails) but does not drop the entity's component columns and records no
Removed change: the archetypes are untouched, the entity column still has
length 1 and the component column still holds the value. -/
theorem c3_despawn_leaves_columns_untouched :
    exampleDespawnedWorld.map World.archetypes =
      exampleInsertedWorld.map World.archetypes ∧
    exampleDespawnedWorld.map (fun w => w.isAlive exampleId) = some false ∧
    exampleDespawnedWorld.bind (fun w => w.despawn exampleId) = none ∧
    exampleDespawnedWorld.map
      (fun w => (w.archetypes.getD 1 Archetype.empty).len) = some 1 ∧
    exampleDespawnedWorld.map
      (fun w => ((w.archetypes.getD 1 Archetype.empty).cells.getD 0
        default).storage) = some [42] ∧
    exampleDespawnedWorld.map
      (fun w => ((w.archetypes.getD 1 Archetype.empty).cells.getD 0
        default).changes.removed) = some ChangeList.new := by decide

/-- C4: inserting a component the entity already has does not succeed: the
first insert of compA succeeds and the value is readable, but the second
insert halts (the edge walk for the duplicated component list leads back
to an archetype without the component, and put_dyn's expect fires). -/
theorem c4_insert_existing_component_halts :
    exampleInsertedWorld.map (fun w => w.get exampleId compA) =
      some (some 42) ∧
    exampleInsertedWorld.bind (fun w => w.insert exampleId compA 43) =
      none := by decide

/-- C7: every archetype id enumerated by the query's archetype-matching
step satisfies the fetch's static matcher and is present in
world.archetypes; likewise for the planar strategy's update_state. -/
theorem c7_query_archetypes_sound (w : World) (fmatches : Archetype → Bool)
    (candidates : List Nat) (filterArch : Archetype → Bool) (id : Nat) :
    (id ∈ Query.getArchetypes w fmatches →
      id < w.archetypes.length ∧
      fmatches (w.archetypes.getD id Archetype.empty) = true) ∧
    (id ∈ Planar.updateState w candidates filterArch →
      id < w.archetypes.length ∧
      filterArch (w.archetypes.getD id Archetype.empty) = true) := by
  constructor
  · intro h
    unfold Query.getArchetypes World.archetypesEnum at h
    rw [List.mem_filterMap] at h
    rcases h with ⟨p, hp, hcond⟩
    rw [List.mem_enum_iff_getElem?] at hp
    have hlt : p.1 < w.archetypes.length :=
      (List.getElem?_eq_some.mp hp).1
    have harch : w.archetypes.getD p.1 Archetype.empty = p.2 := by
      simp [List.getD, hp]
    by_cases hm : fmatches p.2
    · rw [if_pos hm] at hcond
      injection hcond with h2
      subst h2
      exact ⟨hlt, by rw [harch]; exact hm⟩
    · rw [if_neg hm] at hcond
      cases hcond
  · intro h
    unfold Planar.updateState at h
    rw [List.mem_filterMap] at h
    rcases h with ⟨i, hi, hcond⟩
    rw [List.mem_filter] at hi
    have hlt : i < w.archetypes.length := by
      have := hi.2
      simp at this
      exact this
    by_cases hm : filterArch (w.archetypes.getD i Archetype.empty)
    · rw [if_pos hm] at hcond
      injection hcond with h2
      subst h2
      exact ⟨hlt, by exact hm⟩
    · rw [if_neg hm] at hcond
      cases hcond

theorem c7_witness :
    ((0 < exampleSpawn.1.archetypes.length ∧
      ((exampleSpawn.1.archetypes.getD 0 Archetype.empty).len == 1) = true)) ∧
    ((0 < exampleSpawn.1.archetypes.length ∧ (true : Bool) = true)) :=
  ⟨(c7_query_archetypes_sound exampleSpawn.1 (fun a => a.len == 1) [0]
      (fun _ => true) 0).1 (by decide),
   (c7_query_archetypes_sound exampleSpawn.1 (fun a => a.len == 1) [0]
      (fun _ => true) 0).2 (by decide)⟩

theorem lookup_mem_pairs {β : Type} (a : Nat) (b : β)
    (l : List (Nat × β)) (h : List.lookup a l = some b) : (a, b) ∈ l := by
  induction l with
  | nil => cases h
  | cons p rest ih =>
    rw [List.lookup] at h
    split at h
    · injection h with h1
      subst h1
      rename_i heq
      simp at heq
      subst heq
      exact List.mem_cons_self _ _
    · exact List.mem_cons_of_mem _ (ih h)

theorem lookup_enumFrom_map (ids : List Nat) :
    ∀ (n a i : Nat),
      List.lookup a ((ids.enumFrom n).map (fun p => (p.2, p.1))) = some i →
      ∃ k, k < ids.length ∧ ids.getD k 0 = a ∧ i = n + k := by
  induction ids with
  | nil => intro n a i h; cases h
  | cons x xs ih =>
    intro n a i h
    rw [List.enumFrom] at h
    rw [List.map] at h
    rw [List.lookup] at h
    split at h
    · injection h with h1
      subst h1
      rename_i heq
      simp at heq
      subst heq
      exact ⟨0, by simp, by simp, by simp⟩
    · rcases ih (n + 1) a i h with ⟨k, hk, ha, hi⟩
      exact ⟨k + 1, by simpa using hk, by simpa using ha, by omega⟩

theorem lookup_enumFrom_map_self (ids : List Nat) :
    ∀ (n k : Nat), ids.Nodup → k < ids.length →
      List.lookup (ids.getD k 0) ((ids.enumFrom n).map (fun p => (p.2, p.1)))
        = some (n + k) := by
  induction ids with
  | nil => intro n k _ hk; simp at hk
  | cons x xs ih =>
    intro n k hnd hk
    rw [List.enumFrom, List.map, List.lookup]
    cases k with
    | zero => simp
    | succ k1 =>
      have hk1 : k1 < xs.length := by
        simp only [List.length_cons] at hk
        omega
      have hmem : xs.getD k1 0 ∈ xs := by
        rw [List.getD_eq_getElem _ _ hk1]
        exact List.getElem_mem _
      have hne : (xs.getD k1 0 == x) = false := by
        have hx := (List.nodup_cons.mp hnd).1
        simp only [beq_eq_false_iff_ne]
        intro heq
        exact hx (heq ▸ hmem)
      simp only [List.getD_cons_succ]
      rw [hne]
      have hih := ih (n + 1) k1 (List.nodup_cons.mp hnd).2 hk1
      rw [hih]
      show some (n + 1 + k1) = some (n + (k1 + 1))
      exact congrArg some (by omega)

theorem filter_not_mem_mono (univ v1 v2 : List Nat)
    (h : ∀ x, x ∈ v1 → x ∈ v2) :
    (univ.filter (fun x => decide (x ∉ v2))).length ≤
    (univ.filter (fun x => decide (x ∉ v1))).length := by
  induction univ with
  | nil => simp
  | cons u us ih =>
    simp only [List.filter]
    by_cases h2 : u ∈ v2
    · have h1d : (decide (u ∉ v2)) = false := by simp [h2]
      rw [h1d]
      by_cases h1 : u ∈ v1
      · rw [show (decide (u ∉ v1)) = false by simp [h1]]
        exact ih
      · rw [show (decide (u ∉ v1)) = true by simp [h1]]
        simp only [List.length_cons]
        omega
    · have h1 : u ∉ v1 := fun hm => h2 (h u hm)
      rw [show (decide (u ∉ v2)) = true by simp [h2],
        show (decide (u ∉ v1)) = true by simp [h1]]
      simp only [List.length_cons]
      omega

theorem filter_not_mem_insert (univ visited : List Nat) (a : Nat)
    (ha : a ∈ univ) (hav : a ∉ visited) :
    (univ.filter (fun x => decide (x ∉ a :: visited))).length + 1 ≤
    (univ.filter (fun x => decide (x ∉ visited))).length := by
  induction univ with
  | nil => cases ha
  | cons u us ih =>
    simp only [List.filter]
    by_cases hu : u = a
    · subst hu
      rw [show (decide (u ∉ u :: visited)) = false by simp,
        show (decide (u ∉ visited)) = true by simp [hav]]
      simp only [List.length_cons]
      have := filter_not_mem_mono us visited (u :: visited)
        (fun x hx => List.mem_cons_of_mem _ hx)
      omega
    · have hmem : a ∈ us := by
        rcases List.mem_cons.mp ha with h | h
        · exact absurd h.symm hu
        · exact h
      by_cases huv : u ∈ visited
      · rw [show (decide (u ∉ a :: visited)) = false by simp [huv],
          show (decide (u ∉ visited)) = false by simp [huv]]
        exact ih hmem
      · rw [show (decide (u ∉ a :: visited)) = true by simp [huv, hu],
          show (decide (u ∉ visited)) = true by simp [huv]]
        simp only [List.length_cons]
        have := ih hmem
        omega

theorem topoVisit_A (index : List (Nat × Nat)) (deps : List (Nat × List Nat))
    (univ : List Nat)
    (hdeps : ∀ x d, d ∈ depsOf deps x → d ∈ univ)
    (hinj : ∀ a b i, List.lookup a index = some i →
      List.lookup b index = some i → a = b) :
    ∀ fuel a stack st,
      (univ.filter (fun x => decide (x ∉ st.2))).length < fuel →
      a ∈ univ → topoInv index univ stack st →
      (∃ delta, (topoVisit index deps fuel a st).1 = st.1 ++ delta) ∧
      (∀ v ∈ st.2, v ∈ (topoVisit index deps fuel a st).2) ∧
      a ∈ (topoVisit index deps fuel a st).2 ∧
      topoInv index univ stack (topoVisit index deps fuel a st) := by
  intro fuel
  induction fuel with
  | zero =>
    intro a stack st hf
    omega
  | succ f ihf =>
    intro a stack st hf ha hinv
    by_cases hvis : a ∈ st.2
    · rw [show topoVisit index deps (f + 1) a st = st by
        rw [topoVisit]; rw [if_pos hvis]]
      exact ⟨⟨[], by simp⟩, fun v hv => hv, hvis, hinv⟩
    · have hstep : topoVisit index deps (f + 1) a st =
          (let st1 := (depsOf deps a).foldl
            (fun s dep => topoVisit index deps f dep s) (st.1, a :: st.2)
           match List.lookup a index with
           | some idx => (st1.1 ++ [idx], st1.2)
           | none => st1) := by
        rw [topoVisit]; rw [if_neg hvis]
      obtain ⟨hstk, huniv, hK, hnd, hsound⟩ := hinv
      have hinv0 : topoInv index univ (a :: stack) (st.1, a :: st.2) := by
        refine ⟨?_, ?_, ?_, hnd, ?_⟩
        · intro s hs
          rcases List.mem_cons.mp hs with h | h
          · exact h ▸ List.mem_cons_self _ _
          · exact List.mem_cons_of_mem _ (hstk s h)
        · intro v hv
          rcases List.mem_cons.mp hv with h | h
          · exact h ▸ ha
          · exact huniv v h
        · intro x hx
          rcases List.mem_cons.mp hx with h | h
          · subst h
            exact Or.inr (Or.inr (List.mem_cons_self _ _))
          · rcases hK x h with h2 | h2 | h2
            · exact Or.inl h2
            · exact Or.inr (Or.inl h2)
            · exact Or.inr (Or.inr (List.mem_cons_of_mem _ h2))
        · intro i hi
          rcases hsound i hi with ⟨x, hx1, hx2, hx3⟩
          refine ⟨x, List.mem_cons_of_mem _ hx1, ?_, hx3⟩
          intro hmem
          rcases List.mem_cons.mp hmem with h | h
          · exact hvis (h ▸ hx1)
          · exact hx2 h
      have hf0 : (univ.filter (fun x => decide (x ∉ (a :: st.2)))).length
          < f := by
        have := filter_not_mem_insert univ st.2 a ha hvis
        omega
      have hfold : ∀ (ds : List Nat) (st' : List Nat × List Nat),
          (∀ d ∈ ds, d ∈ univ) →
          topoInv index univ (a :: stack) st' →
          (univ.filter (fun x => decide (x ∉ st'.2))).length < f →
          (∃ delta, (ds.foldl (fun s dep => topoVisit index deps f dep s)
            st').1 = st'.1 ++ delta) ∧
          (∀ v ∈ st'.2, v ∈ (ds.foldl
            (fun s dep => topoVisit index deps f dep s) st').2) ∧
          topoInv index univ (a :: stack)
            (ds.foldl (fun s dep => topoVisit index deps f dep s) st') ∧
          (univ.filter (fun x => decide (x ∉ (ds.foldl
            (fun s dep => topoVisit index deps f dep s) st').2))).length
            < f := by
        intro ds
        induction ds with
        | nil =>
          intro st' _ hinv' hf'
          exact ⟨⟨[], by simp⟩, fun v hv => hv, hinv', hf'⟩
        | cons d ds1 ihd =>
          intro st' hdu hinv' hf'
          have h1 := ihf d (a :: stack) st' hf'
            (hdu d (List.mem_cons_self _ _)) hinv'
          obtain ⟨⟨d1, hd1⟩, hmono1, hdin1, hinv1⟩ := h1
          have hflen : (univ.filter (fun x => decide (x ∉
              (topoVisit index deps f d st').2))).length < f := by
            have := filter_not_mem_mono univ st'.2
              (topoVisit index deps f d st').2 hmono1
            omega
          have h2 := ihd (topoVisit index deps f d st')
            (fun x hx => hdu x (List.mem_cons_of_mem _ hx)) hinv1 hflen
          obtain ⟨⟨d2, hd2⟩, hmono2, hinv2, hflen2⟩ := h2
          rw [List.foldl_cons]
          refine ⟨⟨d1 ++ d2, ?_⟩, ?_, hinv2, hflen2⟩
          · rw [hd2, hd1, List.append_assoc]
          · intro v hv
            exact hmono2 v (hmono1 v hv)
      have hall := hfold (depsOf deps a) (st.1, a :: st.2)
        (fun d hd => hdeps a d hd) hinv0 hf0
      obtain ⟨⟨d1, hd1⟩, hmono1, hinv1, _⟩ := hall
      set st1 := (depsOf deps a).foldl
        (fun s dep => topoVisit index deps f dep s) (st.1, a :: st.2)
        with hst1def
      obtain ⟨hstk1, huniv1, hK1, hnd1, hsound1⟩ := hinv1
      have hain : a ∈ st1.2 := hmono1 a (List.mem_cons_self _ _)
      have hanotstack : a ∉ stack := fun hmem => hvis (hstk a hmem)
      cases hlook : List.lookup a index with
      | none =>
        rw [hstep]
        simp only [hlook]
        refine ⟨⟨d1, hd1⟩, ?_, hain, ?_⟩
        · intro v hv
          exact hmono1 v (List.mem_cons_of_mem _ hv)
        · refine ⟨?_, huniv1, ?_, hnd1, ?_⟩
          · intro s hs
            exact hstk1 s (List.mem_cons_of_mem _ hs)
          · intro x hx
            rcases hK1 x hx with h2 | h2 | h2
            · exact Or.inl h2
            · exact Or.inr (Or.inl h2)
            · rcases List.mem_cons.mp h2 with h3 | h3
              · subst h3
                exact Or.inl hlook
              · exact Or.inr (Or.inr h3)
          · intro i hi
            rcases hsound1 i hi with ⟨x, hx1, hx2, hx3⟩
            exact ⟨x, hx1, fun hm => hx2 (List.mem_cons_of_mem _ hm), hx3⟩
      | some ia =>
        rw [hstep]
        simp only [hlook]
        have hianotin : ia ∉ st1.1 := by
          intro hmem
          rcases hsound1 ia hmem with ⟨x, _, hx2, hx3⟩
          have := hinj x a ia hx3 hlook
          subst this
          exact hx2 (List.mem_cons_self _ _)
        refine ⟨⟨d1 ++ [ia], by rw [hd1, List.append_assoc]⟩, ?_, hain, ?_⟩
        · intro v hv
          exact hmono1 v (List.mem_cons_of_mem _ hv)
        · refine ⟨?_, huniv1, ?_, ?_, ?_⟩
          · intro s hs
            exact hstk1 s (List.mem_cons_of_mem _ hs)
          · intro x hx
            rcases hK1 x hx with h2 | h2 | h2
            · exact Or.inl h2
            · rcases h2 with ⟨i, hi1, hi2⟩
              exact Or.inr (Or.inl ⟨i, hi1, List.mem_append_left _ hi2⟩)
            · rcases List.mem_cons.mp h2 with h3 | h3
              · subst h3
                exact Or.inr (Or.inl ⟨ia, hlook,
                  List.mem_append_right _ (List.mem_singleton.mpr rfl)⟩)
              · exact Or.inr (Or.inr h3)
          · rw [List.nodup_append]
            exact ⟨hnd1, List.nodup_singleton _,
              fun x hx hy => hianotin ((List.mem_singleton.mp hy) ▸ hx)⟩
          · intro i hi
            rcases List.mem_append.mp hi with h2 | h2
            · rcases hsound1 i h2 with ⟨x, hx1, hx2, hx3⟩
              exact ⟨x, hx1, fun hm => hx2 (List.mem_cons_of_mem _ hm), hx3⟩
            · rw [List.mem_singleton.mp h2]
              exact ⟨a, hain, hanotstack, hlook⟩

theorem topoFold_A (index : List (Nat × Nat)) (deps : List (Nat × List Nat))
    (univ : List Nat)
    (hdeps : ∀ x d, d ∈ depsOf deps x → d ∈ univ)
    (hinj : ∀ a b i, List.lookup a index = some i →
      List.lookup b index = some i → a = b) (fuel : Nat) :
    ∀ (xs : List Nat) (st : List Nat × List Nat),
      (∀ x ∈ xs, x ∈ univ) →
      topoInv index univ [] st →
      (univ.filter (fun x => decide (x ∉ st.2))).length < fuel →
      (∃ delta, (xs.foldl (fun s x => topoVisit index deps fuel x s)
        st).1 = st.1 ++ delta) ∧
      (∀ v ∈ st.2, v ∈ (xs.foldl
        (fun s x => topoVisit index deps fuel x s) st).2) ∧
      topoInv index univ []
        (xs.foldl (fun s x => topoVisit index deps fuel x s) st) ∧
      (∀ x ∈ xs, x ∈ (xs.foldl
        (fun s x => topoVisit index deps fuel x s) st).2) := by
  intro xs
  induction xs with
  | nil =>
    intro st _ hinv _
    exact ⟨⟨[], by simp⟩, fun v hv => hv, hinv, by simp⟩
  | cons x xs1 ihx =>
    intro st hxu hinv hf
    have h1 := topoVisit_A index deps univ hdeps hinj fuel x [] st hf
      (hxu x (List.mem_cons_self _ _)) hinv
    obtain ⟨⟨d1, hd1⟩, hmono1, hxin1, hinv1⟩ := h1
    have hflen : (univ.filter (fun y => decide (y ∉
        (topoVisit index deps fuel x st).2))).length < fuel := by
      have hle := filter_not_mem_mono univ st.2
        (topoVisit index deps fuel x st).2 hmono1
      omega
    have h2 := ihx (topoVisit index deps fuel x st)
      (fun y hy => hxu y (List.mem_cons_of_mem _ hy)) hinv1 hflen
    obtain ⟨⟨d2, hd2⟩, hmono2, hinv2, hall2⟩ := h2
    rw [List.foldl_cons]
    refine ⟨⟨d1 ++ d2, by rw [hd2, hd1, List.append_assoc]⟩, ?_, hinv2, ?_⟩
    · intro v hv
      exact hmono2 v (hmono1 v hv)
    · intro y hy
      rcases List.mem_cons.mp hy with h | h
      · exact h ▸ hmono2 x hxin1
      · exact hall2 y h

theorem mem_foldr_depsConcat (m : List (Nat × List Nat)) :
    ∀ p ∈ m, ∀ y ∈ p.2, y ∈ m.foldr (fun p acc => p.2 ++ acc) [] := by
  induction m with
  | nil => intro p hp; cases hp
  | cons q m1 ihm =>
    intro p hp y hy
    rw [List.foldr_cons]
    rcases List.mem_cons.mp hp with h | h
    · exact List.mem_append_left _ (h ▸ hy)
    · exact List.mem_append_right _ (ihm p h y hy)

theorem stateUpdate_perm (matched : List (Nat × List Nat))
    (hnodup : (matched.map Prod.fst).Nodup) :
    (State.update matched).Perm (List.range matched.length) := by
  set ids := matched.map Prod.fst with hids
  set index := ids.enum.map (fun p => (p.2, p.1)) with hindex
  set deps := matched.filter (fun p => ¬p.2.isEmpty) with hdepsdef
  set univ := ids ++ matched.foldr (fun p acc => p.2 ++ acc) [] with huniv
  have henum : ids.enum = ids.enumFrom 0 := rfl
  have hinj : ∀ a b i, List.lookup a index = some i →
      List.lookup b index = some i → a = b := by
    intro a b i ha hb
    rw [hindex, henum] at ha hb
    rcases lookup_enumFrom_map ids 0 a i ha with ⟨k, hk, hka, hik⟩
    rcases lookup_enumFrom_map ids 0 b i hb with ⟨k2, hk2, hkb, hik2⟩
    have hkk : k = k2 := by omega
    subst hkk
    rw [← hka, ← hkb]
  have hdeps : ∀ x d, d ∈ depsOf deps x → d ∈ univ := by
    intro x d hd
    unfold depsOf at hd
    cases hl : List.lookup x deps with
    | none =>
      rw [hl] at hd
      simp at hd
    | some l =>
      rw [hl] at hd
      simp only [Option.getD_some] at hd
      have hmem := lookup_mem_pairs x l deps hl
      rw [hdepsdef] at hmem
      have hmem2 : (x, l) ∈ matched := List.mem_of_mem_filter hmem
      exact List.mem_append_right _
        (mem_foldr_depsConcat matched (x, l) hmem2 d hd)
  have hfstart : (univ.filter
      (fun x => decide (x ∉ (([], []) : List Nat × List Nat).2))).length
      < univ.length + 1 := by
    have := List.length_filter_le
      (fun x => decide (x ∉ (([], []) : List Nat × List Nat).2)) univ
    omega
  have hfoldres := topoFold_A index deps univ hdeps hinj (univ.length + 1)
    ids ([], []) (fun x hx => List.mem_append_left _ hx)
    ⟨by simp, by simp, by simp, List.nodup_nil, by simp⟩ hfstart
  obtain ⟨_, _, ⟨_, _, hK, hnd, hsound⟩, hallids⟩ := hfoldres
  have hupd : State.update matched = (ids.foldl
      (fun st a => topoVisit index deps (univ.length + 1) a st)
      ([], [])).1 := rfl
  rw [hupd]
  apply (List.perm_ext_iff_of_nodup hnd (List.nodup_range _)).mpr
  intro i
  have hlen : ids.length = matched.length := by
    rw [hids]
    exact List.length_map _ _
  constructor
  · intro hi
    rcases hsound i hi with ⟨x, hx1, _, hx3⟩
    rw [hindex, henum] at hx3
    rcases lookup_enumFrom_map ids 0 x i hx3 with ⟨k, hk, _, hik⟩
    rw [List.mem_range]
    omega
  · intro hi
    rw [List.mem_range] at hi
    have hilen : i < ids.length := by omega
    have hx : ids.getD i 0 ∈ ids := by
      rw [List.getD_eq_getElem _ _ hilen]
      exact List.getElem_mem _
    have hlook : List.lookup (ids.getD i 0) index = some i := by
      rw [hindex, henum]
      have hsf := lookup_enumFrom_map_self ids 0 i hnodup hilen
      simpa using hsf
    have hvis := hallids _ hx
    rcases hK _ hvis with h | h | h
    · rw [hlook] at h
      cases h
    · rcases h with ⟨j, hj1, hj2⟩
      rw [hlook] at hj1
      injection hj1 with hj
      exact hj ▸ hj2
    · cases h

theorem topoVisit_B (index : List (Nat × Nat)) (deps : List (Nat × List Nat))
    (univ : List Nat) (rank : Nat → Nat)
    (hdeps : ∀ x d, d ∈ depsOf deps x → d ∈ univ)
    (hrank : ∀ x d, d ∈ depsOf deps x → rank d < rank x)
    (hinj : ∀ a b i, List.lookup a index = some i →
      List.lookup b index = some i → a = b) :
    ∀ fuel a stack st,
      (univ.filter (fun x => decide (x ∉ st.2))).length < fuel →
      a ∈ univ → topoInv index univ stack st →
      (∀ s ∈ stack, rank a < rank s) →
      topoPos index deps st.1 →
      topoPos index deps (topoVisit index deps fuel a st).1 := by
  intro fuel
  induction fuel with
  | zero =>
    intro a stack st hf
    omega
  | succ f ihf =>
    intro a stack st hf ha hinv hstackrank hpos
    by_cases hvis : a ∈ st.2
    · rw [show topoVisit index deps (f + 1) a st = st by
        rw [topoVisit]; rw [if_pos hvis]]
      exact hpos
    · have hstep : topoVisit index deps (f + 1) a st =
          (let st1 := (depsOf deps a).foldl
            (fun s dep => topoVisit index deps f dep s) (st.1, a :: st.2)
           match List.lookup a index with
           | some idx => (st1.1 ++ [idx], st1.2)
           | none => st1) := by
        rw [topoVisit]; rw [if_neg hvis]
      obtain ⟨hstk, huniv, hK, hnd, hsound⟩ := hinv
      have hinv0 : topoInv index univ (a :: stack) (st.1, a :: st.2) := by
        refine ⟨?_, ?_, ?_, hnd, ?_⟩
        · intro s hs
          rcases List.mem_cons.mp hs with h | h
          · exact h ▸ List.mem_cons_self _ _
          · exact List.mem_cons_of_mem _ (hstk s h)
        · intro v hv
          rcases List.mem_cons.mp hv with h | h
          · exact h ▸ ha
          · exact huniv v h
        · intro x hx
          rcases List.mem_cons.mp hx with h | h
          · subst h
            exact Or.inr (Or.inr (List.mem_cons_self _ _))
          · rcases hK x h with h2 | h2 | h2
            · exact Or.inl h2
            · exact Or.inr (Or.inl h2)
            · exact Or.inr (Or.inr (List.mem_cons_of_mem _ h2))
        · intro i hi
          rcases hsound i hi with ⟨x, hx1, hx2, hx3⟩
          refine ⟨x, List.mem_cons_of_mem _ hx1, ?_, hx3⟩
          intro hmem
          rcases List.mem_cons.mp hmem with h | h
          · exact hvis (h ▸ hx1)
          · exact hx2 h
      have hf0 : (univ.filter (fun x => decide (x ∉ (a :: st.2)))).length
          < f := by
        have := filter_not_mem_insert univ st.2 a ha hvis
        omega
      have hfoldB : ∀ (ds : List Nat) (st' : List Nat × List Nat),
          (∀ d ∈ ds, d ∈ univ) → (∀ d ∈ ds, rank d < rank a) →
          topoInv index univ (a :: stack) st' →
          (univ.filter (fun x => decide (x ∉ st'.2))).length < f →
          topoPos index deps st'.1 →
          ((∃ delta, (ds.foldl (fun s dep => topoVisit index deps f dep s)
            st').1 = st'.1 ++ delta) ∧
          (∀ v ∈ st'.2, v ∈ (ds.foldl
            (fun s dep => topoVisit index deps f dep s) st').2) ∧
          topoInv index univ (a :: stack)
            (ds.foldl (fun s dep => topoVisit index deps f dep s) st') ∧
          (univ.filter (fun x => decide (x ∉ (ds.foldl
            (fun s dep => topoVisit index deps f dep s) st').2))).length
            < f ∧
          topoPos index deps
            (ds.foldl (fun s dep => topoVisit index deps f dep s) st').1 ∧
          (∀ d ∈ ds, d ∈ (ds.foldl
            (fun s dep => topoVisit index deps f dep s) st').2)) := by
        intro ds
        induction ds with
        | nil =>
          intro st' _ _ hinv' hf' hpos'
          exact ⟨⟨[], by simp⟩, fun v hv => hv, hinv', hf', hpos', by simp⟩
        | cons d ds1 ihd =>
          intro st' hdu hdr hinv' hf' hpos'
          have hA := topoVisit_A index deps univ hdeps hinj f d (a :: stack)
            st' hf' (hdu d (List.mem_cons_self _ _)) hinv'
          obtain ⟨⟨d1, hd1⟩, hmono1, hdin1, hinv1⟩ := hA
          have hstC : ∀ s ∈ a :: stack, rank d < rank s := by
            intro s hs
            rcases List.mem_cons.mp hs with h | h
            · exact h ▸ hdr d (List.mem_cons_self _ _)
            · exact lt_trans (hdr d (List.mem_cons_self _ _))
                (hstackrank s h)
          have hposd := ihf d (a :: stack) st' hf'
            (hdu d (List.mem_cons_self _ _)) hinv' hstC hpos'
          have hflen : (univ.filter (fun x => decide (x ∉
              (topoVisit index deps f d st').2))).length < f := by
            have := filter_not_mem_mono univ st'.2
              (topoVisit index deps f d st').2 hmono1
            omega
          have h2 := ihd (topoVisit index deps f d st')
            (fun x hx => hdu x (List.mem_cons_of_mem _ hx))
            (fun x hx => hdr x (List.mem_cons_of_mem _ hx)) hinv1 hflen hposd
          obtain ⟨⟨d2, hd2⟩, hmono2, hinv2, hflen2, hpos2, hall2⟩ := h2
          rw [List.foldl_cons]
          refine ⟨⟨d1 ++ d2, by rw [hd2, hd1, List.append_assoc]⟩, ?_, hinv2,
            hflen2, hpos2, ?_⟩
          · intro v hv
            exact hmono2 v (hmono1 v hv)
          · intro y hy
            rcases List.mem_cons.mp hy with h | h
            · exact h ▸ hmono2 d hdin1
            · exact hall2 y h
      have hall := hfoldB (depsOf deps a) (st.1, a :: st.2)
        (fun d hd => hdeps a d hd) (fun d hd => hrank a d hd) hinv0 hf0 hpos
      obtain ⟨⟨d1, hd1⟩, hmono1, hinv1, _, hpos1, halldeps⟩ := hall
      set st1 := (depsOf deps a).foldl
        (fun s dep => topoVisit index deps f dep s) (st.1, a :: st.2)
        with hst1def
      obtain ⟨hstk1, huniv1, hK1, hnd1, hsound1⟩ := hinv1
      cases hlook : List.lookup a index with
      | none =>
        rw [hstep]
        simp only [hlook]
        exact hpos1
      | some ia =>
        rw [hstep]
        simp only [hlook]
        intro q hq x d idd hx hd hidd
        have hlen2 : (st1.1 ++ [ia]).length = st1.1.length + 1 := by simp
        by_cases hqlt : q < st1.1.length
        · have hget : (st1.1 ++ [ia]).get ⟨q, hq⟩ =
              st1.1.get ⟨q, hqlt⟩ := List.get_append q hqlt
          rw [hget] at hx
          have := hpos1 q hqlt x d idd hx hd hidd
          rw [List.take_append_of_le_length (by omega)]
          exact this
        · have hqeq : q = st1.1.length := by omega
          subst hqeq
          have hget : (st1.1 ++ [ia]).get ⟨st1.1.length, hq⟩ = ia := by simp
          rw [hget] at hx
          have hxa : x = a := hinj x a ia hx hlook
          subst hxa
          rw [List.take_append_of_le_length (le_refl _), List.take_length]
          have hdvis : d ∈ st1.2 := halldeps d hd
          rcases hK1 d hdvis with h2 | h2 | h2
          · rw [hidd] at h2
            cases h2
          · rcases h2 with ⟨j, hj1, hj2⟩
            rw [hidd] at hj1
            injection hj1 with hj
            exact hj ▸ hj2
          · exfalso
            rcases List.mem_cons.mp h2 with h3 | h3
            · have := hrank x d hd
              rw [h3] at this
              omega
            · have h4 := hstackrank d h3
              have h5 := hrank x d hd
              omega

theorem topoFold_B (index : List (Nat × Nat)) (deps : List (Nat × List Nat))
    (univ : List Nat) (rank : Nat → Nat)
    (hdeps : ∀ x d, d ∈ depsOf deps x → d ∈ univ)
    (hrank : ∀ x d, d ∈ depsOf deps x → rank d < rank x)
    (hinj : ∀ a b i, List.lookup a index = some i →
      List.lookup b index = some i → a = b) (fuel : Nat) :
    ∀ (xs : List Nat) (st : List Nat × List Nat),
      (∀ x ∈ xs, x ∈ univ) →
      topoInv index univ [] st →
      (univ.filter (fun x => decide (x ∉ st.2))).length < fuel →
      topoPos index deps st.1 →
      topoPos index deps
        (xs.foldl (fun s x => topoVisit index deps fuel x s) st).1 := by
  intro xs
  induction xs with
  | nil =>
    intro st _ _ _ hpos
    exact hpos
  | cons x xs1 ihx =>
    intro st hxu hinv hf hpos
    have hA := topoVisit_A index deps univ hdeps hinj fuel x [] st hf
      (hxu x (List.mem_cons_self _ _)) hinv
    obtain ⟨_, hmono1, _, hinv1⟩ := hA
    have hB := topoVisit_B index deps univ rank hdeps hrank hinj fuel x []
      st hf (hxu x (List.mem_cons_self _ _)) hinv
      (fun s hs => absurd hs (List.not_mem_nil s)) hpos
    have hflen : (univ.filter (fun y => decide (y ∉
        (topoVisit index deps fuel x st).2))).length < fuel := by
      have := filter_not_mem_mono univ st.2
        (topoVisit index deps fuel x st).2 hmono1
      omega
    rw [List.foldl_cons]
    exact ihx (topoVisit index deps fuel x st)
      (fun y hy => hxu y (List.mem_cons_of_mem _ hy)) hinv1 hflen hB

/-- C6: State::update's depth-first sort. The matched archetypes are the
(archetype id, dependency ids) pairs in discovery order; the produced
order is a permutation of their indices (each matched archetype appears
exactly once, cyclic graphs included), and under any ranking witnessing
acyclicity of the dependency graph, every archetype appears strictly
after each of its matched dependencies. -/
theorem c6_topological_order (matched : List (Nat × List Nat))
    (hnodup : (matched.map Prod.fst).Nodup) :
    (State.update matched).Perm (List.range matched.length) ∧
    ∀ (rank : Nat → Nat),
      (∀ x d, d ∈ depsOf (matched.filter (fun p => ¬p.2.isEmpty)) x →
        rank d < rank x) →
      ∀ a b ia ib,
        List.lookup a ((matched.map Prod.fst).enum.map (fun p => (p.2, p.1)))
          = some ia →
        List.lookup b ((matched.map Prod.fst).enum.map (fun p => (p.2, p.1)))
          = some ib →
        b ∈ depsOf (matched.filter (fun p => ¬p.2.isEmpty)) a →
        ∃ (qa qb : Nat) (hqa : qa < (State.update matched).length)
          (hqb : qb < (State.update matched).length),
          qb < qa ∧ (State.update matched).get ⟨qa, hqa⟩ = ia ∧
          (State.update matched).get ⟨qb, hqb⟩ = ib := by
  have hperm := stateUpdate_perm matched hnodup
  refine ⟨hperm, ?_⟩
  intro rank hrank a b ia ib hla hlb hbdep
  set ids := matched.map Prod.fst with hids
  set index := ids.enum.map (fun p => (p.2, p.1)) with hindex
  set deps := matched.filter (fun p => ¬p.2.isEmpty) with hdepsdef
  set univ := ids ++ matched.foldr (fun p acc => p.2 ++ acc) [] with huniv
  have henum : ids.enum = ids.enumFrom 0 := rfl
  have hinj : ∀ x y i, List.lookup x index = some i →
      List.lookup y index = some i → x = y := by
    intro x y i hx hy
    rw [hindex, henum] at hx hy
    rcases lookup_enumFrom_map ids 0 x i hx with ⟨k, hk, hka, hik⟩
    rcases lookup_enumFrom_map ids 0 y i hy with ⟨k2, hk2, hkb, hik2⟩
    have hkk : k = k2 := by omega
    subst hkk
    rw [← hka, ← hkb]
  have hdeps : ∀ x d, d ∈ depsOf deps x → d ∈ univ := by
    intro x d hd
    unfold depsOf at hd
    cases hl : List.lookup x deps with
    | none =>
      rw [hl] at hd
      simp at hd
    | some l =>
      rw [hl] at hd
      simp only [Option.getD_some] at hd
      have hmem := lookup_mem_pairs x l deps hl
      rw [hdepsdef] at hmem
      have hmem2 : (x, l) ∈ matched := List.mem_of_mem_filter hmem
      exact List.mem_append_right _
        (mem_foldr_depsConcat matched (x, l) hmem2 d hd)
  have hfstart : (univ.filter
      (fun x => decide (x ∉ (([], []) : List Nat × List Nat).2))).length
      < univ.length + 1 := by
    have := List.length_filter_le
      (fun x => decide (x ∉ (([], []) : List Nat × List Nat).2)) univ
    omega
  have hpos := topoFold_B index deps univ rank hdeps hrank hinj
    (univ.length + 1) ids ([], []) (fun x hx => List.mem_append_left _ hx)
    ⟨by simp, by simp, by simp, List.nodup_nil, by simp⟩ hfstart
    (by intro q hq; simp at hq)
  have hupd : State.update matched = (ids.foldl
      (fun st a => topoVisit index deps (univ.length + 1) a st)
      ([], [])).1 := rfl
  rw [← hupd] at hpos
  have hlen : ids.length = matched.length := by
    rw [hids]
    exact List.length_map _ _
  have hialt : ia < matched.length := by
    rw [hindex, henum] at hla
    rcases lookup_enumFrom_map ids 0 a ia hla with ⟨k, hk, _, hik⟩
    omega
  have hiain : ia ∈ State.update matched := by
    rw [hperm.mem_iff, List.mem_range]
    exact hialt
  rcases List.mem_iff_get.mp hiain with ⟨⟨qa, hqa⟩, hget⟩
  have htake := hpos qa hqa a b ib (by rw [hget]; exact hla) hbdep hlb
  rcases List.mem_iff_get.mp htake with ⟨⟨qb, hqb⟩, hgetb⟩
  have hqblt : qb < qa := by
    have := hqb
    simp only [List.length_take] at this
    omega
  have hqblen : qb < (State.update matched).length := by
    have := hqb
    simp only [List.length_take] at this
    omega
  refine ⟨qa, qb, hqa, hqblen, hqblt, hget, ?_⟩
  rw [← hgetb]
  exact List.get_take _ hqblen hqblt

theorem c6_witness :
    (State.update topoExample).Perm (List.range topoExample.length) ∧
    (∃ (qa qb : Nat) (hqa : qa < (State.update topoExample).length)
      (hqb : qb < (State.update topoExample).length),
      qb < qa ∧ (State.update topoExample).get ⟨qa, hqa⟩ = 2 ∧
      (State.update topoExample).get ⟨qb, hqb⟩ = 6) :=
  ⟨(c6_topological_order topoExample (by decide)).1,
   (c6_topological_order topoExample (by decide)).2
     (fun x => [0, 3, 2, 0, 3, 1, 1].getD x 0)
     (by
       intro x d hd
       unfold depsOf at hd
       cases hl : List.lookup x (topoExample.filter (fun p => ¬p.2.isEmpty))
         with
       | none =>
         rw [hl] at hd
         simp at hd
       | some l =>
         rw [hl] at hd
         simp only [Option.getD_some] at hd
         have hm := lookup_mem_pairs x l _ hl
         fin_cases hm
         · simp at hd
           rcases hd with rfl | rfl <;> decide
         · simp at hd
           subst hd
           decide
         · simp at hd
           rcases hd with rfl | rfl <;> decide
         · simp at hd
           rcases hd with rfl | rfl <;> decide
         · simp at hd
           subst hd
           decide)
     2 6 2 6 (by decide) (by decide) (by decide)⟩

theorem clipStep_fst_tick (v c : Change) :
    (ChangeList.clipStep v c).1.tick = v.tick := by
  unfold ChangeList.clipStep
  split
  · split <;> rfl
  · rfl

theorem clipStep_snd_tick (v c : Change) :
    (ChangeList.clipStep v c).2.tick = c.tick := by
  unfold ChangeList.clipStep
  split
  · rfl
  · split <;> rfl

theorem clipStep_fst_covers {v c : Change} {s : Nat}
    (h : (ChangeList.clipStep v c).1.slice.covers s) : v.slice.covers s := by
  unfold ChangeList.clipStep at h
  split at h
  · revert h
    split
    · rename_i d hd
      intro h
      exact (Slice.difference_covers hd h).1
    · intro h
      exact h
  · exact h

theorem clipStep_snd_covers {v c : Change} {s : Nat}
    (h : c.slice.covers s) :
    (ChangeList.clipStep v c).2.slice.covers s ∨
    (v.slice.covers s ∧ ¬v.tick < c.tick) := by
  unfold ChangeList.clipStep
  split
  · exact Or.inl h
  · rename_i hnlt
    simp only
    cases hd : c.slice.difference v.slice with
    | some d =>
      by_cases hds : d.covers s
      · exact Or.inl hds
      · exact Or.inr ⟨Slice.covers_of_not_difference hd h hds, hnlt⟩
    | none => exact Or.inl h

theorem clipStep_ge_fst {v c : Change} (h : ¬v.tick < c.tick) :
    (ChangeList.clipStep v c).1 = v := by
  unfold ChangeList.clipStep
  rw [if_neg h]

theorem clipStep_lt_snd {v c : Change} (h : v.tick < c.tick) :
    (ChangeList.clipStep v c).2 = c := by
  unfold ChangeList.clipStep
  rw [if_pos h]

theorem mergeStep_fst_tick (v1 c1 : Change) (j : Bool) :
    (ChangeList.mergeStep v1 c1 j).1.tick = v1.tick := by
  unfold ChangeList.mergeStep
  split
  · split <;> rfl
  · rfl

theorem mergeStep_fst_covers {v1 c1 : Change} {j : Bool} {s : Nat}
    (h : v1.slice.covers s) :
    (ChangeList.mergeStep v1 c1 j).1.slice.covers s := by
  unfold ChangeList.mergeStep
  split
  · cases hu : v1.slice.union c1.slice with
    | some u =>
      simp only [hu]
      exact Slice.union_covers_left hu h
    | none =>
      simp only [hu]
      exact h
  · exact h

theorem mergeStep_joined_or (v1 c1 : Change) (j : Bool) :
    (ChangeList.mergeStep v1 c1 j).2 = j ∨
    (v1.tick = c1.tick ∧
      ∀ s, c1.slice.covers s →
        (ChangeList.mergeStep v1 c1 j).1.slice.covers s) := by
  unfold ChangeList.mergeStep
  split
  · rename_i hcond
    cases hu : v1.slice.union c1.slice with
    | some u =>
      simp only [hu]
      exact Or.inr ⟨hcond.2, fun s hs => Slice.union_covers_right hu hs⟩
    | none =>
      simp only [hu]
      exact Or.inl trivial
  · exact Or.inl rfl

theorem setLoop_cons_of_empty {c : Change} (hce : c.slice.isEmpty)
    (v : Change) (rest : List Change) (ip i : Nat) (j : Bool) :
    ChangeList.setLoop c ip i j (v :: rest) =
      ⟨v :: (ChangeList.setLoop c ip i j rest).out,
       (ChangeList.setLoop c ip i j rest).change,
       (ChangeList.setLoop c ip i j rest).insertPoint,
       (ChangeList.setLoop c ip i j rest).joined⟩ := by
  rw [ChangeList.setLoop]
  rw [if_pos hce]

theorem setLoop_cons_of_dead {c v : Change} {rest : List Change}
    {ip i : Nat} {j : Bool} (hce : ¬c.slice.isEmpty)
    (hme : (ChangeList.mergeStep (ChangeList.clipStep v c).1
      (ChangeList.clipStep v c).2 j).1.slice.isEmpty) :
    ChangeList.setLoop c ip i j (v :: rest) =
      ChangeList.setLoop (ChangeList.clipStep v c).2 ip i
        (ChangeList.mergeStep (ChangeList.clipStep v c).1
          (ChangeList.clipStep v c).2 j).2 rest := by
  rw [ChangeList.setLoop]
  rw [if_neg hce]
  simp only [if_pos hme]

theorem setLoop_cons_of_live {c v : Change} {rest : List Change}
    {ip i : Nat} {j : Bool} (hce : ¬c.slice.isEmpty)
    (hme : ¬(ChangeList.mergeStep (ChangeList.clipStep v c).1
      (ChangeList.clipStep v c).2 j).1.slice.isEmpty) :
    ChangeList.setLoop c ip i j (v :: rest) =
      ⟨(ChangeList.mergeStep (ChangeList.clipStep v c).1
          (ChangeList.clipStep v c).2 j).1 ::
        (ChangeList.setLoop (ChangeList.clipStep v c).2
          (if (ChangeList.mergeStep (ChangeList.clipStep v c).1
              (ChangeList.clipStep v c).2 j).1.slice.lt
              (ChangeList.clipStep v c).2.slice then i + 1 else ip)
          (i + 1) (ChangeList.mergeStep (ChangeList.clipStep v c).1
            (ChangeList.clipStep v c).2 j).2 rest).out,
       (ChangeList.setLoop (ChangeList.clipStep v c).2
          (if (ChangeList.mergeStep (ChangeList.clipStep v c).1
              (ChangeList.clipStep v c).2 j).1.slice.lt
              (ChangeList.clipStep v c).2.slice then i + 1 else ip)
          (i + 1) (ChangeList.mergeStep (ChangeList.clipStep v c).1
            (ChangeList.clipStep v c).2 j).2 rest).change,
       (ChangeList.setLoop (ChangeList.clipStep v c).2
          (if (ChangeList.mergeStep (ChangeList.clipStep v c).1
              (ChangeList.clipStep v c).2 j).1.slice.lt
              (ChangeList.clipStep v c).2.slice then i + 1 else ip)
          (i + 1) (ChangeList.mergeStep (ChangeList.clipStep v c).1
            (ChangeList.clipStep v c).2 j).2 rest).insertPoint,
       (ChangeList.setLoop (ChangeList.clipStep v c).2
          (if (ChangeList.mergeStep (ChangeList.clipStep v c).1
              (ChangeList.clipStep v c).2 j).1.slice.lt
              (ChangeList.clipStep v c).2.slice then i + 1 else ip)
          (i + 1) (ChangeList.mergeStep (ChangeList.clipStep v c).1
            (ChangeList.clipStep v c).2 j).2 rest).joined⟩ := by
  rw [ChangeList.setLoop]
  rw [if_neg hce]
  simp only [if_neg hme]

theorem setLoop_survive :
    ∀ (l : List Change) (c : Change) (ip i : Nat) (j : Bool) (e : Change)
      (s : Nat), e ∈ l → c.tick ≤ e.tick → e.slice.covers s →
      ∃ e2 ∈ (ChangeList.setLoop c ip i j l).out,
        e2.tick = e.tick ∧ e2.slice.covers s := by
  intro l
  induction l with
  | nil =>
    intro c ip i j e s he
    cases he
  | cons v rest ihl =>
    intro c ip i j e s he ht hs
    by_cases hce : c.slice.isEmpty
    · rw [setLoop_cons_of_empty hce]
      rcases List.mem_cons.mp he with h | h
      · exact ⟨v, List.mem_cons_self _ _, by rw [h], h ▸ hs⟩
      · rcases ihl c ip i j e s h ht hs with ⟨e2, he2, hp⟩
        exact ⟨e2, List.mem_cons_of_mem _ he2, hp⟩
    · rcases List.mem_cons.mp he with h | h
      · subst h
        have hnlt : ¬e.tick < c.tick := by omega
        have hv1 : (ChangeList.clipStep e c).1 = e := clipStep_ge_fst hnlt
        have hm1cov : (ChangeList.mergeStep (ChangeList.clipStep e c).1
            (ChangeList.clipStep e c).2 j).1.slice.covers s := by
          apply mergeStep_fst_covers
          rw [hv1]
          exact hs
        have hme : ¬(ChangeList.mergeStep (ChangeList.clipStep e c).1
            (ChangeList.clipStep e c).2 j).1.slice.isEmpty :=
          fun hemp => absurd hemp
            (Slice.covers_nonempty hm1cov)
        rw [setLoop_cons_of_live hce hme]
        refine ⟨_, List.mem_cons_self _ _, ?_, hm1cov⟩
        rw [mergeStep_fst_tick, hv1]
      · have htk2 : (ChangeList.clipStep v c).2.tick = c.tick :=
          clipStep_snd_tick v c
        by_cases hme : (ChangeList.mergeStep (ChangeList.clipStep v c).1
            (ChangeList.clipStep v c).2 j).1.slice.isEmpty
        · rw [setLoop_cons_of_dead hce hme]
          exact ihl _ _ _ _ e s h (by omega) hs
        · rw [setLoop_cons_of_live hce hme]
          rcases ihl (ChangeList.clipStep v c).2 _ _ _ e s h (by omega) hs
            with ⟨e2, he2, hp⟩
          exact ⟨e2, List.mem_cons_of_mem _ he2, hp⟩

theorem setLoop_cover :
    ∀ (l : List Change) (c : Change) (ip i : Nat) (j : Bool) (s : Nat),
      c.slice.covers s →
      (∃ e ∈ (ChangeList.setLoop c ip i j l).out,
        e.slice.covers s ∧ c.tick ≤ e.tick) ∨
      ((ChangeList.setLoop c ip i j l).change.slice.covers s ∧
       (ChangeList.setLoop c ip i j l).change.tick = c.tick ∧
       (ChangeList.setLoop c ip i j l).joined = j) := by
  intro l
  induction l with
  | nil =>
    intro c ip i j s hs
    exact Or.inr ⟨hs, rfl, rfl⟩
  | cons v rest ihl =>
    intro c ip i j s hs
    have hce : ¬c.slice.isEmpty := Slice.covers_nonempty hs
    have hctk : (ChangeList.clipStep v c).2.tick = c.tick :=
      clipStep_snd_tick v c
    have hvtk : (ChangeList.clipStep v c).1.tick = v.tick :=
      clipStep_fst_tick v c
    rcases clipStep_snd_covers (v := v) hs with hc1 | ⟨hv1, hnlt⟩
    · -- the clipped incoming change still covers s
      rcases mergeStep_joined_or (ChangeList.clipStep v c).1
        (ChangeList.clipStep v c).2 j with hjoin | ⟨hteq, hjcov⟩
      · -- not merged at this entry: recurse with the clipped change
        by_cases hme : (ChangeList.mergeStep (ChangeList.clipStep v c).1
            (ChangeList.clipStep v c).2 j).1.slice.isEmpty
        · rw [setLoop_cons_of_dead hce hme, hjoin]
          rcases ihl (ChangeList.clipStep v c).2 ip i j s hc1 with h | h
          · simp only [hctk] at h
            exact Or.inl h
          · exact Or.inr ⟨h.1, by rw [h.2.1, hctk], h.2.2⟩
        · rw [setLoop_cons_of_live hce hme, hjoin]
          rcases ihl (ChangeList.clipStep v c).2
            (if (ChangeList.mergeStep (ChangeList.clipStep v c).1
              (ChangeList.clipStep v c).2 j).1.slice.lt
              (ChangeList.clipStep v c).2.slice then i + 1 else ip)
            (i + 1) j s hc1 with ⟨e, he, hp⟩ | h
          · refine Or.inl ⟨e, List.mem_cons_of_mem _ he, hp.1, ?_⟩
            rw [← hctk]
            exact hp.2
          · exact Or.inr ⟨h.1, by rw [h.2.1, hctk], h.2.2⟩
      · -- merged: the merged entry covers s at an equal tick
        have hm1cov := hjcov s hc1
        have hme : ¬(ChangeList.mergeStep (ChangeList.clipStep v c).1
            (ChangeList.clipStep v c).2 j).1.slice.isEmpty :=
          fun hemp => absurd hemp (Slice.covers_nonempty hm1cov)
        rw [setLoop_cons_of_live hce hme]
        refine Or.inl ⟨_, List.mem_cons_self _ _, hm1cov, ?_⟩
        rw [mergeStep_fst_tick, hvtk]
        rw [hvtk, hctk] at hteq
        omega
    · -- s is covered by the entry, which survives clipping and merging
      have hv2 : (ChangeList.clipStep v c).1.slice.covers s := by
        rw [clipStep_ge_fst hnlt]
        exact hv1
      have hm1cov : (ChangeList.mergeStep (ChangeList.clipStep v c).1
          (ChangeList.clipStep v c).2 j).1.slice.covers s :=
        mergeStep_fst_covers hv2
      have hme : ¬(ChangeList.mergeStep (ChangeList.clipStep v c).1
          (ChangeList.clipStep v c).2 j).1.slice.isEmpty :=
        fun hemp => absurd hemp (Slice.covers_nonempty hm1cov)
      rw [setLoop_cons_of_live hce hme]
      refine Or.inl ⟨_, List.mem_cons_self _ _, hm1cov, ?_⟩
      rw [mergeStep_fst_tick, hvtk]
      omega

theorem mem_insertAt_of_mem {e c : Change} :
    ∀ (n : Nat) (l : List Change), e ∈ l → e ∈ insertAt n c l
  | _, [], h => absurd h (List.not_mem_nil e)
  | 0, x :: xs, h => by
    simp only [insertAt, List.mem_cons] at *
    exact Or.inr h
  | n + 1, x :: xs, h => by
    simp only [insertAt, List.mem_cons] at *
    rcases h with h | h
    · exact Or.inl h
    · exact Or.inr (mem_insertAt_of_mem n xs h)

theorem self_mem_insertAt (c : Change) :
    ∀ (n : Nat) (l : List Change), c ∈ insertAt n c l
  | _, [] => by simp [insertAt]
  | 0, x :: xs => by simp [insertAt]
  | n + 1, x :: xs => by
    simp only [insertAt, List.mem_cons]
    exact Or.inr (self_mem_insertAt c n xs)

theorem set_covers (l : ChangeList) (c : Change) (s : Nat)
    (hs : c.slice.covers s) :
    ∃ e ∈ (l.set c).inner, e.slice.covers s ∧ c.tick ≤ e.tick := by
  simp only [ChangeList.set]
  rcases setLoop_cover l.inner c 0 0 false s hs with ⟨e, he, hp⟩ | ⟨h1, h2, h3⟩
  · split
    · exact ⟨e, mem_insertAt_of_mem _ _ he, hp⟩
    · exact ⟨e, he, hp⟩
  · split
    · rename_i hcond
      refine ⟨(ChangeList.setLoop c 0 0 false l.inner).change,
        self_mem_insertAt _ _ _, h1, by rw [h2]⟩
    · rename_i hcond
      rw [not_and_or] at hcond
      rcases hcond with hcond | hcond
    -- the change was not joined (h3) yet the insert guard failed: the
    -- pending change must be empty, contradicting that it covers s
      · exact absurd h3 (by simpa using hcond)
      · rw [not_not] at hcond
        exact absurd hcond (Slice.covers_nonempty h1)

theorem set_survives (l : ChangeList) (c e : Change) (s : Nat)
    (he : e ∈ l.inner) (ht : c.tick ≤ e.tick) (hs : e.slice.covers s) :
    ∃ e2 ∈ (l.set c).inner, e2.tick = e.tick ∧ e2.slice.covers s := by
  simp only [ChangeList.set]
  rcases setLoop_survive l.inner c 0 0 false e s he ht hs with ⟨e2, he2, hp⟩
  split
  · exact ⟨e2, mem_insertAt_of_mem _ _ he2, hp⟩
  · exact ⟨e2, he2, hp⟩

theorem run_tick (w : WriteComponent) :
    ∀ chunks : List Slice, (ArchetypeChunks.run w chunks).1.tick = w.tick := by
  intro chunks
  induction chunks generalizing w with
  | nil => rfl
  | cons c rest ih =>
    show (ArchetypeChunks.run (w.setVisited c) rest).1.tick = w.tick
    rw [ih]
    rfl

theorem run_yield (w : WriteComponent) :
    ∀ chunks : List Slice, (ArchetypeChunks.run w chunks).2 = chunks := by
  intro chunks
  induction chunks generalizing w with
  | nil => rfl
  | cons c rest ih =>
    show c :: (ArchetypeChunks.run (w.setVisited c) rest).2 = c :: rest
    rw [ih]

theorem run_events (w : WriteComponent) :
    ∀ chunks : List Slice,
      (ArchetypeChunks.run w chunks).1.events =
        w.events ++ chunks.map (fun c => ⟨c, EventKind.Modified⟩) := by
  intro chunks
  induction chunks generalizing w with
  | nil => simp [ArchetypeChunks.run]
  | cons c rest ih =>
    show (ArchetypeChunks.run (w.setVisited c) rest).1.events = _
    rw [ih]
    simp [WriteComponent.setVisited]

theorem run_survives (w : WriteComponent) (e : Change) (s : Nat)
    (chunks : List Slice) (he : e ∈ w.changes.modified.inner)
    (ht : w.tick ≤ e.tick) (hs : e.slice.covers s) :
    ∃ e2 ∈ (ArchetypeChunks.run w chunks).1.changes.modified.inner,
      w.tick ≤ e2.tick ∧ e2.slice.covers s := by
  induction chunks generalizing w e with
  | nil => exact ⟨e, he, ht, hs⟩
  | cons c rest ih =>
    show ∃ e2 ∈ (ArchetypeChunks.run (w.setVisited c) rest).1.changes.modified.inner, _
    rcases set_survives w.changes.modified ⟨c, w.tick, ChangeKind.Modified⟩
        e s he ht hs with ⟨e2, he2, htk, hcov⟩
    rcases ih (w.setVisited c) e2 he2 (le_of_le_of_eq ht htk.symm) hcov
      with ⟨e3, he3, h3⟩
    exact ⟨e3, he3, h3⟩

theorem run_covers (w : WriteComponent) (chunk : Slice) (s : Nat)
    (chunks : List Slice) (hc : chunk ∈ chunks) (hs : chunk.covers s) :
    ∃ e ∈ (ArchetypeChunks.run w chunks).1.changes.modified.inner,
      w.tick ≤ e.tick ∧ e.slice.covers s := by
  induction chunks generalizing w with
  | nil => exact absurd hc (List.not_mem_nil chunk)
  | cons c rest ih =>
    show ∃ e ∈ (ArchetypeChunks.run (w.setVisited c) rest).1.changes.modified.inner, _
    rcases List.mem_cons.mp hc with hc | hc
    · subst hc
      rcases set_covers w.changes.modified ⟨chunk, w.tick, ChangeKind.Modified⟩
          s hs with ⟨e, he, hcov, htk⟩
      exact run_survives (w.setVisited chunk) e s rest he htk hcov
    · exact ih (w.setVisited c) hc

/-- C8: iterating a Mutable(component) fetch over an archetype yields
exactly the filter's chunks; for each yielded chunk the cell's subscribers
are notified with a Modified event for exactly that chunk's slots, in
iteration order, and Modified(chunk, new_tick) is recorded on the
component's modified change list when the chunk is consumed: every slot of
every yielded chunk ends up covered by an entry of the modified list whose
tick is at least the query's new tick. -/
theorem c8_mutable_fetch_marks_modified (w : WriteComponent)
    (chunks : List Slice) :
    ((ArchetypeChunks.run w chunks).2 = chunks ∧
     (ArchetypeChunks.run w chunks).1.events =
       w.events ++ chunks.map (fun c => ⟨c, EventKind.Modified⟩)) ∧
    ∀ chunk ∈ chunks, ∀ s : Nat, chunk.covers s →
      ∃ e ∈ (ArchetypeChunks.run w chunks).1.changes.modified.inner,
        w.tick ≤ e.tick ∧ e.slice.covers s :=
  ⟨⟨run_yield w chunks, run_events w chunks⟩,
   fun chunk hc s hs => run_covers w chunk s chunks hc hs⟩

theorem c8_witness :
    Slice.new 5 8 ∈ [Slice.new 0 3, Slice.new 5 8] ∧
    (Slice.new 5 8).covers 6 ∧
    ∃ e ∈ (ArchetypeChunks.run ⟨Changes.new compA, [], 5⟩
        [Slice.new 0 3, Slice.new 5 8]).1.changes.modified.inner,
      5 ≤ e.tick ∧ e.slice.covers 6 :=
  ⟨by decide, by decide,
   (c8_mutable_fetch_marks_modified ⟨Changes.new compA, [], 5⟩
     [Slice.new 0 3, Slice.new 5 8]).2 (Slice.new 5 8) (by decide) 6
     (by decide)⟩
